import Mathlib

/-!
Verification of the build-scope analyzer (Stratus-TEST/stratus-actions).

The repository holds two variants of the reconciliation engine:
`main.py` (the "V4" full-discovery variant) and `build_scope_analyzer.py`
(the "V3" variant with the branching deletion classifier).  Both are
embedded here: the shared string/path machinery first, then the V4
pipeline, then the V3 deletion classifier in namespace `V3`.

Modelling conventions:
* a relative path (`pathlib.Path`) is a list of components (`RelPath`);
* the file system, the yaml parser, the git diff and the environment
  are oracles bundled in an `Env` record (they are external collaborators
  whose outputs the code consumes);
* Python's `str.lower` is modelled by `Char.toLower` (ASCII lowering),
  which is exact on the ASCII inputs the analyzer handles;
* Python's `re.sub(r'-+', '-', s)` is modelled by `collapseDashes`,
  `s.strip('-')` by `stripDashes`, and `str.replace(pat, '')` by
  `replaceAllStr` (non-overlapping left-to-right replacement);
* `fnmatch.fnmatch` on POSIX is modelled by `globMatch` (literal
  characters plus the wildcards `*` and `?`; the patterns used by the
  claims contain no character classes).
-/
/-- A relative file-system path, as its list of components.
`[]` is `Path('.')`, the repository root. -/
abbrev RelPath := List String

/-- Model of `Path.parent`: drop the last component. -/
def parentDir (p : RelPath) : RelPath := p.dropLast

/-- Model of `Path.name`: the final component (`""` for the root, as in `pathlib`). -/
def fileName (p : RelPath) : String := p.getLast?.getD ""

/-- Model of `str(path)`: components joined by `/`, with `"."` for the root. -/
def pathStr (p : RelPath) : String :=
  if p = [] then "." else String.intercalate "/" p

/-- The folder name used for fallback app naming: the root directory's
own name for the root folder, else the folder's final component. -/
def folderBaseName (rootName : String) (p : RelPath) : String :=
  if p = [] then rootName else fileName p

/-! ## Name normalization (`_normalize_azure_name`, main.py lines 41-47) -/
/-- A character inside the class `[a-z0-9-]` of the regex
`re.sub(r'[^a-z0-9-]', '-', name)`. -/
def allowedChar (c : Char) : Bool :=
  (97 ≤ c.toNat && c.toNat ≤ 122) || (48 ≤ c.toNat && c.toNat ≤ 57) || (c.toNat == 45)

/-- One step of `re.sub(r'[^a-z0-9-]', '-', name)`. -/
def replaceDisallowed (c : Char) : Char := if allowedChar c then c else '-'

/-- Model of `re.sub(r'-+', '-', name)`: collapse each run of dashes to one dash. -/
def collapseDashes : List Char → List Char
  | [] => []
  | [c] => [c]
  | a :: b :: t =>
    if a = '-' ∧ b = '-' then collapseDashes (b :: t) else a :: collapseDashes (b :: t)

/-- Remove a trailing run of dashes (the right half of `name.strip('-')`). -/
def dropTrailingDashes : List Char → List Char
  | [] => []
  | c :: t =>
    match dropTrailingDashes t with
    | [] => if c = '-' then [] else [c]
    | r => c :: r

/-- Model of `name.strip('-')`. -/
def stripDashes (l : List Char) : List Char :=
  dropTrailingDashes (l.dropWhile (· == '-'))

/-- Model of `_normalize_azure_name` (main.py lines 41-47): lowercase, replace the
characters outside `[a-z0-9-]` by `-`, collapse runs of `-`, strip
leading/trailing `-`. -/
def normalize_azure_name (s : String) : String :=
  String.mk (stripDashes (collapseDashes ((s.data.map Char.toLower).map replaceDisallowed)))

/-- No two consecutive dashes occur in the list. -/
def noDoubleDash : List Char → Bool
  | [] => true
  | [_] => true
  | a :: b :: t => (!(a == '-' && b == '-')) && noDoubleDash (b :: t)

/-- Python `str.lower()` on a whole string. -/
def lowerStr (s : String) : String := String.mk (s.data.map Char.toLower)

/-- Container-name composition:
`base_name if not suffix else f"{base_name}-{suffix}"`. -/
def composeName (base suffix : String) : String :=
  if suffix = "" then base else base ++ "-" ++ suffix

/-- Python's truthiness-based `x or d` for an optional string `x`:
`None` and `""` both fall through to the default. -/
def orElseStr (o : Option String) (d : String) : String :=
  match o with
  | some s => if s = "" then d else s
  | none => d

/-! ## Glob matching

Model of POSIX `fnmatch.fnmatch` restricted to literal characters and the
wildcards `*` (any run of characters, `/` included) and `?` (any single
character); the patterns exercised here contain no character classes. -/
def globMatchFuel : Nat → List Char → List Char → Bool
  | 0, _, _ => false
  | _ + 1, [], [] => true
  | _ + 1, [], _ :: _ => false
  | f + 1, p :: ps, [] => if p = '*' then globMatchFuel f ps [] else false
  | f + 1, p :: ps, c :: s =>
    if p = '*' then globMatchFuel f ps (c :: s) || globMatchFuel f (p :: ps) s
    else (p = '?' || p == c) && globMatchFuel f ps s

/-- Every recursive step shrinks `pattern.length + s.length`, so this fuel
is always sufficient. -/
def globMatch (pattern s : List Char) : Bool :=
  globMatchFuel (pattern.length + s.length + 1) pattern s

/-- Model of `fnmatch.fnmatch(path_str, pattern)`. -/
def fnmatchStr (s pattern : String) : Bool := globMatch pattern.data s.data

/-- Model of `_normalize_pattern` (main.py lines 35-39): `/`, `.`, `./` mean the
whole repository. -/
def normalize_pattern (pattern : String) : String :=
  if pattern = "/" ∨ pattern = "." ∨ pattern = "./" then "" else pattern

/-- Model of `should_include_path` (main.py lines 149-163): the path must satisfy the
include pattern (when present) and must not satisfy the exclude pattern
(when present). -/
def should_include_path (includePat excludePat : String) (p : RelPath) : Bool :=
  if includePat ≠ "" ∧ fnmatchStr (pathStr p) includePat = false then false
  else if excludePat ≠ "" ∧ fnmatchStr (pathStr p) excludePat = true then false
  else true

/-! ## The external world -/
/-- One record of `git diff --name-status`, already split on tabs and with
each field converted by `Path(...)`: `status` is the first field and
`fields` the remaining ones.  A malformed record (fewer than two fields)
has `fields = []`. -/
structure DiffLine where
  status : String
  fields : List RelPath
deriving DecidableEq, Repr

/-- The analyzer's external collaborators: the file tree on disk, the yaml
parser, the build-context directive reader, the git diff, the reference
resolver and the process environment.  All are read-only oracles. -/
structure Env where
  tree : List RelPath
  rootName : String
  includePat : String
  excludePat : String
  eventName : String
  baseRef : String
  resolveRef : String → Option String
  diff : List DiffLine
  readYamlName : RelPath → Option String
  contextDirective : RelPath → Option String
  dirExists : RelPath → Bool

/-! ## Change Set Resolver (main.py lines 67-121) -/
/-- Model of `get_comparison_ref`: pull requests compare against the base branch,
`workflow_dispatch` has no reference, everything else compares against
`HEAD~1`.  A failing `rev-parse` yields no commit sha. -/
def get_comparison_ref (env : Env) : String × Option String :=
  if env.eventName = "pull_request" then
    ("origin/" ++ env.baseRef, env.resolveRef ("origin/" ++ env.baseRef))
  else if env.eventName = "workflow_dispatch" then ("", none)
  else ("HEAD~1", env.resolveRef "HEAD~1")

/-- One iteration of the diff-parsing loop in `get_changed_files`
(main.py lines 102-119). -/
def diffStep (acc : List RelPath × List RelPath × List (RelPath × RelPath)) (l : DiffLine) :
    List RelPath × List RelPath × List (RelPath × RelPath) :=
  match l.fields with
  | [] => acc
  | p :: rest =>
    if l.status = "D" then (acc.1, acc.2.1 ++ [p], acc.2.2)
    else if l.status = "R" then
      match rest with
      | q :: _ => (acc.1 ++ [q], acc.2.1, acc.2.2 ++ [(p, q)])
      | [] => acc
    else if l.status = "A" ∨ l.status = "M" then (acc.1 ++ [p], acc.2.1, acc.2.2)
    else acc

/-- Model of `get_changed_files` (main.py lines 89-121): `(changed, deleted, renamed)`.
With no comparison reference all three collections are empty. -/
def get_changed_files (env : Env) : List RelPath × List RelPath × List (RelPath × RelPath) :=
  if (get_comparison_ref env).1 = "" then ([], [], [])
  else env.diff.foldl diffStep ([], [], [])

def changedOf (env : Env) : List RelPath := (get_changed_files env).1

def deletedOf (env : Env) : List RelPath := (get_changed_files env).2.1

/-! ## File Discoverer (main.py lines 123-147) -/
/-- Python's `str.startswith`, modelled on the character lists (the
byte-level `String.isPrefixOf` loop does not reduce in the kernel). -/
def startsWithStr (pre s : String) : Bool := pre.data.isPrefixOf s.data

def isAppConfigName (name : String) : Bool := name == "app.yaml" || name == "app.yml"

def isDockerfileName (name : String) : Bool :=
  name == "Dockerfile" || startsWithStr "Dockerfile." name

/-- Model of `discover_files`: configuration files and build-definition files found
in the tree (`tree` lists every file, relative to the root). -/
def discover_files (tree : List RelPath) : List RelPath × List RelPath :=
  (tree.filter fun f => isAppConfigName (fileName f),
   tree.filter fun f => !isAppConfigName (fileName f) && isDockerfileName (fileName f))

/-! ## Inventory Builder (main.py lines 190-255) -/
/-- Insert-or-update for an insertion-ordered association list (a Python
dict keyed by folder). -/
def upsertWith {β : Type} (k : RelPath) (f : β → β) (e : β) :
    List (RelPath × β) → List (RelPath × β)
  | [] => [(k, f e)]
  | (k', v) :: t => if k' = k then (k', f v) :: t else (k', v) :: upsertWith k f e t

def lookupKey {β : Type} (k : RelPath) : List (RelPath × β) → Option β
  | [] => none
  | (k', v) :: t => if k' = k then some v else lookupKey k t

structure FolderFiles where
  appConfig : Option RelPath
  dockerfiles : List RelPath
deriving DecidableEq, Repr

def emptyFolderFiles : FolderFiles := ⟨none, []⟩

/-- The folder-grouping phase of `build_unified_inventory` (main.py lines
194-209): configuration files first (the last one seen wins the
`app_config` slot), then build-definition files appended in order. -/
def groupByFolder (configs dockerfiles : List RelPath) : List (RelPath × FolderFiles) :=
  let f0 := configs.foldl (fun acc c =>
    upsertWith (parentDir c) (fun v => { v with appConfig := some c }) emptyFolderFiles acc) []
  dockerfiles.foldl (fun acc d =>
    upsertWith (parentDir d) (fun v => { v with dockerfiles := v.dockerfiles ++ [d] })
      emptyFolderFiles acc) f0

/-- Python's `str.replace(pat, rep)`: non-overlapping left-to-right
replacement of every occurrence.  Each step consumes at least one input
character, so the fuel below is always sufficient. -/
def replaceFuel : Nat → List Char → List Char → List Char → List Char
  | 0, _, _, s => s
  | _ + 1, _, _, [] => []
  | f + 1, pat, rep, c :: s =>
    if pat.isPrefixOf (c :: s) ∧ pat ≠ [] then
      rep ++ replaceFuel f pat rep (List.drop pat.length (c :: s))
    else
      c :: replaceFuel f pat rep s

def replaceAllChars (pat rep s : List Char) : List Char :=
  replaceFuel (s.length + 1) pat rep s

def strReplaceAll (s pat rep : String) : String :=
  String.mk (replaceAllChars pat.data rep.data s.data)

/-- Suffix extraction: `'' if name == 'Dockerfile' else
name.replace('Dockerfile.', '')`. -/
def dockerfileSuffix (name : String) : String :=
  if name = "Dockerfile" then "" else strReplaceAll name "Dockerfile." ""

structure DockerfileInfo where
  path : RelPath
  name : String
  suffix : String
deriving DecidableEq, Repr

def mkDockerfileInfo (d : RelPath) : DockerfileInfo :=
  { path := d, name := fileName d, suffix := dockerfileSuffix (fileName d) }

structure InvEntry where
  path : RelPath
  appName : String
  appConfig : Option RelPath
  dockerfiles : List DockerfileInfo
deriving DecidableEq, Repr

/-- Model of `build_unified_inventory` (main.py lines 190-255): group the discovered
files by folder, drop folders with no recognized file, apply the
include/exclude filter to the *folder* path, resolve the app name
(declared `name` field, with the normalized folder name as fallback —
Python's falsy test makes an empty declared name fall through too). -/
def build_unified_inventory (env : Env) (configs dockerfiles : List RelPath) : List InvEntry :=
  (groupByFolder configs dockerfiles).filterMap fun fv =>
    if fv.2.appConfig = none ∧ fv.2.dockerfiles = [] then none
    else if should_include_path (normalize_pattern env.includePat) env.excludePat fv.1 = false
    then none
    else
      some { path := fv.1
             appName := orElseStr (fv.2.appConfig.bind env.readYamlName)
                          (normalize_azure_name (folderBaseName env.rootName fv.1))
             appConfig := fv.2.appConfig
             dockerfiles := fv.2.dockerfiles.map mkDockerfileInfo }

def inventoryOf (env : Env) : List InvEntry :=
  build_unified_inventory env (discover_files env.tree).1 (discover_files env.tree).2

/-! ## Matrix Emitter (main.py lines 257-343) -/
/-- Model of `folder_has_changes` (main.py lines 257-262): some changed file has the
folder as its direct parent. -/
def folder_has_changes (folder : RelPath) (changedFiles : List RelPath) : Bool :=
  changedFiles.any fun f => parentDir f == folder

structure AppItem where
  path : RelPath
  appName : String
  appConfig : RelPath
deriving DecidableEq, Repr

structure ContainerItem where
  path : RelPath
  context : String
  appName : String
  dockerfile : DockerfileInfo
  containerName : String
deriving DecidableEq, Repr

structure DeletedApp where
  path : RelPath
  appName : String
  appConfig : RelPath
  commitSha : Option String
deriving DecidableEq, Repr

structure DeletedContainer where
  appName : String
  containerName : String
  dockerfile : RelPath
  commitSha : Option String
deriving DecidableEq, Repr

/-- Model of `get_dockerfile_context` (main.py lines 176-188): an in-file
`# @context:` directive wins, else the file's own folder. -/
def get_dockerfile_context (env : Env) (p : RelPath) : String :=
  (env.contextDirective p).getD (pathStr (parentDir p))

def mkAppItem (e : InvEntry) (c : RelPath) : AppItem := ⟨e.path, e.appName, c⟩

/-- One container record of the matrix loop (main.py lines 299-313):
the container name is the composed base name, lowercased. -/
def mkContainerItem (env : Env) (e : InvEntry) (df : DockerfileInfo) : ContainerItem :=
  { path := e.path
    context := get_dockerfile_context env df.path
    appName := e.appName
    dockerfile := df
    containerName := lowerStr (composeName e.appName df.suffix) }

def allAppsOf (env : Env) : List AppItem :=
  (inventoryOf env).filterMap fun e => e.appConfig.map (mkAppItem e)

def updatedAppsOf (env : Env) : List AppItem :=
  ((inventoryOf env).filter fun e => folder_has_changes e.path (changedOf env)).filterMap
    fun e => e.appConfig.map (mkAppItem e)

def allContainersOf (env : Env) : List ContainerItem :=
  (inventoryOf env).flatMap fun e => e.dockerfiles.map (mkContainerItem env e)

def updatedContainersOf (env : Env) : List ContainerItem :=
  ((inventoryOf env).filter fun e => folder_has_changes e.path (changedOf env)).flatMap
    fun e => e.dockerfiles.map (mkContainerItem env e)

/-! ## Deletion Classifier, V4 variant (main.py lines 345-399) -/
structure DelGroup where
  appConfigs : List RelPath
  dockerfiles : List RelPath
deriving DecidableEq, Repr

def emptyDelGroup : DelGroup := ⟨[], []⟩

/-- Categorize one deleted file (main.py lines 360-364). -/
def addDeletedV4 (p : RelPath) (g : DelGroup) : DelGroup :=
  if isAppConfigName (fileName p) then { g with appConfigs := g.appConfigs ++ [p] }
  else if isDockerfileName (fileName p) then { g with dockerfiles := g.dockerfiles ++ [p] }
  else g

/-- The deletion-classifier grouping loop shared by both variants: skip
files rejected by the include/exclude filter, group the rest by parent
folder in first-occurrence order. -/
def groupFold {β : Type} (pred : RelPath → Bool) (add : RelPath → β → β) (e : β)
    (files : List RelPath) : List (RelPath × β) :=
  files.foldl (fun acc p =>
    if pred p = false then acc else upsertWith (parentDir p) (add p) e acc) []

/-- The include/exclude test applied by the V4 pipeline (whose constructor
normalized the include pattern). -/
def v4pred (env : Env) (p : RelPath) : Bool :=
  should_include_path (normalize_pattern env.includePat) env.excludePat p

/-- Group the deleted files that pass the include/exclude filter by their
parent folder (main.py lines 350-364).  Note the filter is applied to the
deleted *file* path here, not to its folder. -/
def groupDeletedV4 (env : Env) (deletedFiles : List RelPath) : List (RelPath × DelGroup) :=
  groupFold (v4pred env) addDeletedV4 emptyDelGroup deletedFiles

/-- The records emitted for one folder's batch of deletions (main.py lines
367-397).  The source computes `folder_exists` on line 375 and never reads
it: every deleted configuration yields a Unit record and every deleted
build-definition file yields an Artifact record, with the folder-derived
normalized app name in both. -/
def deletionRecordsV4 (env : Env) (fg : RelPath × DelGroup) :
    List DeletedApp × List DeletedContainer :=
  let appName := normalize_azure_name (folderBaseName env.rootName fg.1)
  let _folderExists := env.dirExists fg.1
  (fg.2.appConfigs.map fun c => ⟨fg.1, appName, c, none⟩,
   fg.2.dockerfiles.map fun d =>
     ⟨appName, lowerStr (composeName appName (dockerfileSuffix (fileName d))), d, none⟩)

/-- Model of `analyze_deletions` (main.py lines 345-399). -/
def analyze_deletions (env : Env) (deletedFiles : List RelPath) :
    List DeletedApp × List DeletedContainer :=
  ((groupDeletedV4 env deletedFiles).flatMap fun fg => (deletionRecordsV4 env fg).1,
   (groupDeletedV4 env deletedFiles).flatMap fun fg => (deletionRecordsV4 env fg).2)

/-- The deleted-apps output with the commit sha attached when one was
resolved (main.py lines 319-325). -/
def deletedAppsOf (env : Env) : List DeletedApp :=
  match (get_comparison_ref env).2 with
  | some sha => (analyze_deletions env (deletedOf env)).1.map fun r => { r with commitSha := some sha }
  | none => (analyze_deletions env (deletedOf env)).1

def deletedContainersOf (env : Env) : List DeletedContainer :=
  match (get_comparison_ref env).2 with
  | some sha => (analyze_deletions env (deletedOf env)).2.map fun r => { r with commitSha := some sha }
  | none => (analyze_deletions env (deletedOf env)).2

structure AppsOut where
  updated : List AppItem
  all : List AppItem
  deleted : List DeletedApp
  hasUpdates : Bool
  hasDeletions : Bool

structure ContainersOut where
  updated : List ContainerItem
  all : List ContainerItem
  deleted : List DeletedContainer
  hasUpdates : Bool
  hasDeletions : Bool

structure MatrixOut where
  apps : AppsOut
  containers : ContainersOut
  ref : String

/-- Model of `generate_matrix_output` (main.py lines 264-343). -/
def generate_matrix_output (env : Env) : MatrixOut :=
  { apps := { updated := updatedAppsOf env
              all := allAppsOf env
              deleted := deletedAppsOf env
              hasUpdates := !(updatedAppsOf env).isEmpty
              hasDeletions := !(deletedAppsOf env).isEmpty }
    containers := { updated := updatedContainersOf env
                    all := allContainersOf env
                    deleted := deletedContainersOf env
                    hasUpdates := !(updatedContainersOf env).isEmpty
                    hasDeletions := !(deletedContainersOf env).isEmpty }
    ref := (get_comparison_ref env).1 }

namespace V3

/-! ## Deletion Classifier, V3 variant
(build_scope_analyzer.py lines 168-284) -/
structure DelGroup3 where
  dockerfiles : List RelPath
  appConfigs : List RelPath
  otherFiles : List RelPath
deriving DecidableEq, Repr

def emptyDelGroup3 : DelGroup3 := ⟨[], [], []⟩

/-- Categorize one deleted file (build_scope_analyzer.py lines 190-196):
any `Dockerfile*` name counts as a build definition here. -/
def addDeleted3 (p : RelPath) (g : DelGroup3) : DelGroup3 :=
  if startsWithStr "Dockerfile" (fileName p) then { g with dockerfiles := g.dockerfiles ++ [p] }
  else if isAppConfigName (fileName p) then { g with appConfigs := g.appConfigs ++ [p] }
  else { g with otherFiles := g.otherFiles ++ [p] }

/-- The include/exclude test applied by the V3 pipeline (no pattern
normalization in this variant). -/
def v3pred (env : Env) (p : RelPath) : Bool :=
  should_include_path env.includePat env.excludePat p

def groupDeleted3 (env : Env) (deletedFiles : List RelPath) : List (RelPath × DelGroup3) :=
  groupFold (v3pred env) addDeleted3 emptyDelGroup3 deletedFiles

/-- Model of `find_app_yaml` (build_scope_analyzer.py lines 157-166): the first of
`app.yaml`, `app.yml` that still exists in the folder. -/
def find_app_yaml (env : Env) (folder : RelPath) : Option RelPath :=
  if (folder ++ ["app.yaml"]) ∈ env.tree then some (folder ++ ["app.yaml"])
  else if (folder ++ ["app.yml"]) ∈ env.tree then some (folder ++ ["app.yml"])
  else none

/-- Model of `get_app_name_from_yaml` (build_scope_analyzer.py lines 540-551). -/
def get_app_name_from_yaml (env : Env) (cfg : Option RelPath) : Option String :=
  cfg.bind env.readYamlName

/-- Model of `get_container_name` (build_scope_analyzer.py lines 567-573): the
declared name wins when present and truthy, then the suffix is appended
and the whole is lowercased. -/
def get_container_name (env : Env) (appName : String) (suffix : String)
    (cfg : Option RelPath) : String :=
  lowerStr (composeName (orElseStr (get_app_name_from_yaml env cfg) appName) suffix)

/-- The records emitted for one folder's batch of deletions
(build_scope_analyzer.py lines 199-282): a removed folder yields exactly
one Unit record (configuration path defaulted to `folder/app.yaml` when no
deleted configuration was observed); a still-existing folder yields a Unit
record only when a configuration was deleted, and its artifact names are
resolved against the deleted configuration if any, else the live one. -/
def deletionRecords3 (env : Env) (fg : RelPath × DelGroup3) :
    List DeletedApp × List DeletedContainer :=
  let folder := fg.1
  let items := fg.2
  let appName := fileName folder
  if env.dirExists folder = false then
    ([⟨folder, appName, (items.appConfigs.head?).getD (folder ++ ["app.yaml"]), none⟩],
     items.dockerfiles.map fun d =>
       ⟨appName,
        get_container_name env appName (dockerfileSuffix (fileName d)) items.appConfigs.head?,
        d, none⟩)
  else
    ((match items.appConfigs with
      | [] => []
      | c :: _ => [⟨folder, appName, c, none⟩]),
     items.dockerfiles.map fun d =>
       let cfg := match items.appConfigs.head? with
         | some c => some c
         | none => find_app_yaml env folder
       ⟨appName, get_container_name env appName (dockerfileSuffix (fileName d)) cfg, d, none⟩)

/-- Model of `analyze_deletions` (build_scope_analyzer.py lines 168-284). -/
def analyze_deletions (env : Env) (deletedFiles : List RelPath) :
    List DeletedApp × List DeletedContainer :=
  ((groupDeleted3 env deletedFiles).flatMap fun fg => (deletionRecords3 env fg).1,
   (groupDeleted3 env deletedFiles).flatMap fun fg => (deletionRecords3 env fg).2)

end V3

/-! ## Machinery: characterizing the diff parse -/
/-- The deleted path contributed by one diff record. -/
def dExtract (l : DiffLine) : Option RelPath :=
  match l.fields with
  | [] => none
  | p :: _ => if l.status = "D" then some p else none

/-- The added/modified path contributed by one diff record (a rename
contributes its destination). -/
def amExtract (l : DiffLine) : Option RelPath :=
  match l.fields with
  | [] => none
  | p :: rest =>
    if l.status = "D" then none
    else if l.status = "R" then rest.head?
    else if l.status = "A" ∨ l.status = "M" then some p else none

/-- The rename pair contributed by one diff record. -/
def renExtract (l : DiffLine) : Option (RelPath × RelPath) :=
  match l.fields with
  | [] => none
  | p :: rest =>
    if l.status = "D" then none
    else if l.status = "R" then rest.head?.map fun q => (p, q)
    else none

/-! ## Machinery: the V4 deletion groups -/
/-- The group that the V4 deletion classifier accumulates for `folder`. -/
def delGroupForV4 (env : Env) (folder : RelPath) (del : List RelPath) : DelGroup :=
  { appConfigs := del.filter fun p =>
      v4pred env p && (parentDir p == folder) && isAppConfigName (fileName p)
    dockerfiles := del.filter fun p =>
      v4pred env p && (parentDir p == folder) && !isAppConfigName (fileName p)
        && isDockerfileName (fileName p) }

/-- One step of the per-folder view of the V4 grouping fold. -/
def v4step (env : Env) (folder : RelPath) (ov : Option DelGroup) (p : RelPath) :
    Option DelGroup :=
  if v4pred env p = true ∧ parentDir p = folder then
    some (addDeletedV4 p (ov.getD emptyDelGroup))
  else ov

namespace V3

/-! ## Machinery: the V3 deletion groups -/
/-- The group that the V3 deletion classifier accumulates for `folder`. -/
def delGroupFor3 (env : Env) (folder : RelPath) (del : List RelPath) : DelGroup3 :=
  { dockerfiles := del.filter fun p =>
      v3pred env p && (parentDir p == folder) && startsWithStr "Dockerfile" (fileName p)
    appConfigs := del.filter fun p =>
      v3pred env p && (parentDir p == folder) && !startsWithStr "Dockerfile" (fileName p)
        && isAppConfigName (fileName p)
    otherFiles := del.filter fun p =>
      v3pred env p && (parentDir p == folder) && !startsWithStr "Dockerfile" (fileName p)
        && !isAppConfigName (fileName p) }

/-- One step of the per-folder view of the V3 grouping fold. -/
def v3step (env : Env) (folder : RelPath) (ov : Option DelGroup3) (p : RelPath) :
    Option DelGroup3 :=
  if v3pred env p = true ∧ parentDir p = folder then
    some (addDeleted3 p (ov.getD emptyDelGroup3))
  else ov

end V3

/-- Well-formedness of a version-control diff, as git guarantees it: a
path reported deleted is not also reported by any added/modified record,
nor as either side of a rename. -/
abbrev wfDiff (env : Env) : Prop :=
  ∀ l ∈ env.diff, ∀ l' ∈ env.diff, l.status = "D" → l.fields ≠ [] →
    ((l'.status = "A" ∨ l'.status = "M" ∨ l'.status = "R") →
      l'.fields.head? ≠ l.fields.head?)
    ∧ (l'.status = "R" → l'.fields.tail.head? ≠ l.fields.head?)

/-! ## Concrete environments for the closed theorems and witnesses -/
/-- A live unit whose configuration declares the name `My App`. -/
def envC3x : Env :=
  { tree := [["a", "app.yaml"], ["a", "Dockerfile"]]
    rootName := "repo"
    includePat := ""
    excludePat := ""
    eventName := "push"
    baseRef := "main"
    resolveRef := fun _ => none
    diff := []
    readYamlName := fun p => if p = ["a", "app.yaml"] then some "My App" else none
    contextDirective := fun _ => none
    dirExists := fun _ => true }

/-- A live unit declaring `My App` whose sidecar build definition
`p/Dockerfile.auth` was deleted (V3 classifier scenario). -/
def envC2x : Env :=
  { tree := [["p", "app.yaml"], ["p", "Dockerfile"]]
    rootName := "repo"
    includePat := ""
    excludePat := ""
    eventName := "push"
    baseRef := "main"
    resolveRef := fun _ => none
    diff := [{ status := "D", fields := [["p", "Dockerfile.auth"]] }]
    readYamlName := fun p => if p = ["p", "app.yaml"] then some "My App" else none
    contextDirective := fun _ => none
    dirExists := fun _ => true }

/-- A folder `a` removed from disk whose only deleted file was its build
definition — no configuration was ever in the diff. -/
def envC4x : Env :=
  { tree := []
    rootName := "repo"
    includePat := ""
    excludePat := ""
    eventName := "push"
    baseRef := "main"
    resolveRef := fun _ => none
    diff := [{ status := "D", fields := [["a", "Dockerfile"]] }]
    readYamlName := fun _ => none
    contextDirective := fun _ => none
    dirExists := fun _ => false }

/-- Include pattern `*/frontend`: matches the folder, not its files. -/
def envC9a : Env :=
  { tree := [["apps", "frontend", "app.yaml"]]
    rootName := "repo"
    includePat := "*/frontend"
    excludePat := ""
    eventName := "push"
    baseRef := "main"
    resolveRef := fun _ => none
    diff := []
    readYamlName := fun _ => none
    contextDirective := fun _ => none
    dirExists := fun _ => true }

/-- Include pattern `*/frontend/*`: matches the files, not the folder. -/
def envC9b : Env :=
  { tree := [["apps", "frontend", "app.yaml"]]
    rootName := "repo"
    includePat := "*/frontend/*"
    excludePat := ""
    eventName := "push"
    baseRef := "main"
    resolveRef := fun _ => none
    diff := []
    readYamlName := fun _ => none
    contextDirective := fun _ => none
    dirExists := fun _ => true }

/-- Folder `u` had both `app.yaml` and `app.yml`; only `app.yaml` was
deleted and `app.yml` (declaring `Declared-U`) survives on disk. -/
def envC10a : Env :=
  { tree := [["u", "app.yml"], ["u", "Dockerfile"]]
    rootName := "root"
    includePat := ""
    excludePat := ""
    eventName := "push"
    baseRef := "main"
    resolveRef := fun _ => none
    diff := [{ status := "D", fields := [["u", "app.yaml"]] }]
    readYamlName := fun p => if p = ["u", "app.yml"] then some "Declared-U" else none
    contextDirective := fun _ => none
    dirExists := fun _ => true }

/-- Folder `u` with both recognized configuration files deleted in one
run. -/
def envC10b : Env :=
  { tree := [["u", "Dockerfile"]]
    rootName := "root"
    includePat := ""
    excludePat := ""
    eventName := "push"
    baseRef := "main"
    resolveRef := fun _ => none
    diff := [{ status := "D", fields := [["u", "app.yaml"]] },
             { status := "D", fields := [["u", "app.yml"]] }]
    readYamlName := fun _ => none
    contextDirective := fun _ => none
    dirExists := fun _ => true }

/-- Whole folder `a` removed (V3 scenario for the C1 witness). -/
def envW1 : Env :=
  { tree := []
    rootName := "repo"
    includePat := ""
    excludePat := ""
    eventName := "push"
    baseRef := "main"
    resolveRef := fun _ => none
    diff := [{ status := "D", fields := [["a", "Dockerfile"]] }]
    readYamlName := fun _ => none
    contextDirective := fun _ => none
    dirExists := fun _ => false }

/-- Live unit `p` declaring `myapp`, deleted sidecar (C2 witness). -/
def envW2 : Env :=
  { tree := [["p", "app.yaml"], ["p", "Dockerfile"]]
    rootName := "repo"
    includePat := ""
    excludePat := ""
    eventName := "push"
    baseRef := "main"
    resolveRef := fun _ => none
    diff := [{ status := "D", fields := [["p", "Dockerfile.auth"]] }]
    readYamlName := fun p => if p = ["p", "app.yaml"] then some "myapp" else none
    contextDirective := fun _ => none
    dirExists := fun _ => true }

/-- A unit with no configuration, so its name is folder-derived (C3
witness). -/
def envW3 : Env :=
  { tree := [["a", "Dockerfile"]]
    rootName := "repo"
    includePat := ""
    excludePat := ""
    eventName := "push"
    baseRef := "main"
    resolveRef := fun _ => none
    diff := []
    readYamlName := fun _ => none
    contextDirective := fun _ => none
    dirExists := fun _ => true }

def itemW3 : ContainerItem :=
  { path := ["a"]
    context := "a"
    appName := "a"
    dockerfile := { path := ["a", "Dockerfile"], name := "Dockerfile", suffix := "" }
    containerName := "a" }

/-- A diff with one rename, one modification and one deletion (C6
witness). -/
def envW6 : Env :=
  { tree := []
    rootName := "repo"
    includePat := ""
    excludePat := ""
    eventName := "push"
    baseRef := "main"
    resolveRef := fun _ => none
    diff := [{ status := "R", fields := [["a", "x"], ["b", "y"]] },
             { status := "M", fields := [["c", "z"]] },
             { status := "D", fields := [["d", "w"]] }]
    readYamlName := fun _ => none
    contextDirective := fun _ => none
    dirExists := fun _ => true }

/-- A manual run over a small tree (C7 witness). -/
def envW7 : Env :=
  { tree := [["a", "app.yaml"], ["a", "Dockerfile"]]
    rootName := "repo"
    includePat := ""
    excludePat := ""
    eventName := "workflow_dispatch"
    baseRef := "main"
    resolveRef := fun _ => none
    diff := []
    readYamlName := fun _ => none
    contextDirective := fun _ => none
    dirExists := fun _ => true }

def entryW7 : InvEntry :=
  { path := ["a"]
    appName := "a"
    appConfig := some ["a", "app.yaml"]
    dockerfiles := [{ path := ["a", "Dockerfile"], name := "Dockerfile", suffix := "" }] }

/-! ### Lemmas about the normalization pipeline -/
theorem mem_collapseDashes {c : Char} : ∀ {l : List Char}, c ∈ collapseDashes l → c ∈ l
  | [], h => by simp [collapseDashes] at h
  | [a], h => by simpa [collapseDashes] using h
  | a :: b :: t, h => by
    rw [collapseDashes] at h
    split at h
    · exact List.mem_cons_of_mem a (mem_collapseDashes h)
    · rcases List.mem_cons.1 h with h | h
      · exact h ▸ List.mem_cons_self _ _
      · exact List.mem_cons_of_mem a (mem_collapseDashes h)

theorem collapseDashes_cons : ∀ (b : Char) (t : List Char),
    ∃ r, collapseDashes (b :: t) = b :: r
  | b, [] => ⟨[], rfl⟩
  | b, c :: t => by
    rw [collapseDashes]
    split
    · rename_i h
      obtain ⟨r, hr⟩ := collapseDashes_cons c t
      exact ⟨r, by rw [hr, h.1, h.2]⟩
    · exact ⟨collapseDashes (c :: t), rfl⟩

theorem noDoubleDash_collapseDashes : ∀ l : List Char, noDoubleDash (collapseDashes l) = true
  | [] => rfl
  | [a] => rfl
  | a :: b :: t => by
    rw [collapseDashes]
    split
    · exact noDoubleDash_collapseDashes (b :: t)
    · rename_i h
      obtain ⟨r, hr⟩ := collapseDashes_cons b t
      rw [hr]
      show ((!(a == '-' && b == '-')) && noDoubleDash (b :: r)) = true
      have h1 : noDoubleDash (b :: r) = true := hr ▸ noDoubleDash_collapseDashes (b :: t)
      have h2 : (a == '-' && b == '-') = false := by
        by_cases ha : a = '-'
        · by_cases hb : b = '-'
          · exact absurd ⟨ha, hb⟩ h
          · simp [hb]
        · simp [ha]
      rw [h1, h2]
      rfl

theorem collapseDashes_of_noDoubleDash : ∀ l : List Char, noDoubleDash l = true → collapseDashes l = l
  | [], _ => rfl
  | [a], _ => rfl
  | a :: b :: t, h => by
    have h' : ((!(a == '-' && b == '-')) && noDoubleDash (b :: t)) = true := h
    simp only [Bool.and_eq_true, Bool.not_eq_true', Bool.and_eq_false_iff,
      beq_eq_false_iff_ne] at h'
    rw [collapseDashes]
    split
    · rename_i hab
      rcases h'.1 with hc | hc <;> [exact absurd hab.1 hc; exact absurd hab.2 hc]
    · rw [collapseDashes_of_noDoubleDash (b :: t) h'.2]

theorem dropTrailingDashes_pfx : ∀ l : List Char, dropTrailingDashes l <+: l
  | [] => List.prefix_refl []
  | c :: t => by
    have ih := dropTrailingDashes_pfx t
    cases hr : dropTrailingDashes t with
    | nil =>
      rw [dropTrailingDashes, hr]
      show (if c = '-' then [] else [c]) <+: c :: t
      by_cases hc : c = '-'
      · rw [if_pos hc]; exact List.nil_prefix
      · rw [if_neg hc]; exact ⟨t, rfl⟩
    | cons d r =>
      rw [dropTrailingDashes, hr]
      show c :: d :: r <+: c :: t
      rw [hr] at ih
      exact (List.prefix_cons_inj c).2 ih

theorem noDoubleDash_of_pfx : ∀ {l₁ l₂ : List Char}, l₁ <+: l₂ → noDoubleDash l₂ = true →
    noDoubleDash l₁ = true
  | [], _, _, _ => rfl
  | [_], _, _, _ => rfl
  | a :: b :: t, l₂, hp, h => by
    obtain ⟨r, hr⟩ := hp
    subst hr
    have h' : ((!(a == '-' && b == '-')) && noDoubleDash (b :: (t ++ r))) = true := h
    simp only [Bool.and_eq_true] at h'
    show ((!(a == '-' && b == '-')) && noDoubleDash (b :: t)) = true
    simp only [Bool.and_eq_true]
    exact ⟨h'.1, noDoubleDash_of_pfx ⟨r, rfl⟩ h'.2⟩

theorem noDoubleDash_tail {a : Char} {t : List Char} (h : noDoubleDash (a :: t) = true) :
    noDoubleDash t = true := by
  match t with
  | [] => rfl
  | b :: t' =>
    have h' : ((!(a == '-' && b == '-')) && noDoubleDash (b :: t')) = true := h
    simp only [Bool.and_eq_true] at h'
    exact h'.2

theorem noDoubleDash_dropWhile {p : Char → Bool} : ∀ {l : List Char},
    noDoubleDash l = true → noDoubleDash (l.dropWhile p) = true
  | [], _ => rfl
  | a :: t, h => by
    rw [List.dropWhile]
    split
    · exact noDoubleDash_dropWhile (noDoubleDash_tail h)
    · exact h

theorem head?_dropWhile_dash : ∀ l : List Char,
    (l.dropWhile (· == '-')).head? ≠ some '-'
  | [] => by simp
  | a :: t => by
    rw [List.dropWhile]
    split
    · exact head?_dropWhile_dash t
    · rename_i h
      simp only [List.head?_cons, ne_eq, Option.some.injEq]
      intro hc
      rw [hc] at h
      simp at h

theorem getLast?_dropTrailingDashes : ∀ l : List Char,
    (dropTrailingDashes l).getLast? ≠ some '-'
  | [] => by simp [dropTrailingDashes]
  | c :: t => by
    have ih := getLast?_dropTrailingDashes t
    cases hr : dropTrailingDashes t with
    | nil =>
      rw [dropTrailingDashes, hr]
      show (if c = '-' then ([] : List Char) else [c]).getLast? ≠ some '-'
      by_cases hc : c = '-'
      · rw [if_pos hc]; simp
      · rw [if_neg hc]; simpa using hc
    | cons d r =>
      rw [dropTrailingDashes, hr]
      show (c :: d :: r).getLast? ≠ some '-'
      rw [hr] at ih
      rw [List.getLast?_cons_cons]
      exact ih

theorem dropTrailingDashes_of_getLast? : ∀ l : List Char,
    l.getLast? ≠ some '-' → dropTrailingDashes l = l
  | [], _ => rfl
  | [c], h => by
    simp only [List.getLast?_singleton, ne_eq, Option.some.injEq] at h
    rw [dropTrailingDashes]
    show (if c = '-' then ([] : List Char) else [c]) = [c]
    rw [if_neg h]
  | c :: d :: t, h => by
    rw [List.getLast?_cons_cons] at h
    have ih := dropTrailingDashes_of_getLast? (d :: t) h
    rw [dropTrailingDashes, ih]

theorem dropWhile_of_head?_ne {l : List Char} (h : l.head? ≠ some '-') :
    l.dropWhile (· == '-') = l := by
  match l with
  | [] => rfl
  | c :: t =>
    simp only [List.head?_cons, ne_eq, Option.some.injEq] at h
    have hb : (c == '-') = false := by simpa using h
    rw [List.dropWhile, hb]

theorem head?_stripDashes (l : List Char) : (stripDashes l).head? ≠ some '-' := by
  rw [stripDashes]
  intro hc
  have hp := dropTrailingDashes_pfx (l.dropWhile (· == '-'))
  have hdw := head?_dropWhile_dash l
  cases hm : dropTrailingDashes (l.dropWhile (· == '-')) with
  | nil => rw [hm] at hc; simp at hc
  | cons d r =>
    rw [hm] at hc
    simp only [List.head?_cons, Option.some.injEq] at hc
    subst hc
    rw [hm] at hp
    obtain ⟨s, hs⟩ := hp
    rw [← hs] at hdw
    simp at hdw

theorem getLast?_stripDashes (l : List Char) : (stripDashes l).getLast? ≠ some '-' :=
  getLast?_dropTrailingDashes _

theorem noDoubleDash_stripDashes {l : List Char} (h : noDoubleDash l = true) :
    noDoubleDash (stripDashes l) = true :=
  noDoubleDash_of_pfx (dropTrailingDashes_pfx _) (noDoubleDash_dropWhile h)

theorem mem_dropTrailingDashes {c : Char} {l : List Char} (h : c ∈ dropTrailingDashes l) :
    c ∈ l :=
  (dropTrailingDashes_pfx l).subset h

theorem mem_stripDashes {c : Char} {l : List Char} (h : c ∈ stripDashes l) : c ∈ l :=
  (List.dropWhile_sublist _).subset (mem_dropTrailingDashes h)

theorem allowedChar_replaceDisallowed (c : Char) : allowedChar (replaceDisallowed c) = true := by
  rw [replaceDisallowed]
  split
  · assumption
  · decide

theorem toLower_of_allowedChar {c : Char} (h : allowedChar c = true) : Char.toLower c = c := by
  rw [allowedChar] at h
  simp only [Bool.or_eq_true, Bool.and_eq_true, decide_eq_true_eq, beq_iff_eq] at h
  rw [Char.toLower]
  have : ¬(c.toNat ≥ 65 ∧ c.toNat ≤ 90) := by omega
  simp [this]

theorem replaceDisallowed_of_allowedChar {c : Char} (h : allowedChar c = true) :
    replaceDisallowed c = c := by
  rw [replaceDisallowed, if_pos h]

theorem allowedChar_mem_normalize {s : String} {c : Char}
    (h : c ∈ (normalize_azure_name s).data) : allowedChar c = true := by
  rw [normalize_azure_name] at h
  have h1 : c ∈ collapseDashes ((s.data.map Char.toLower).map replaceDisallowed) :=
    mem_stripDashes h
  have h2 := mem_collapseDashes h1
  obtain ⟨d, _, hd⟩ := List.mem_map.1 h2
  rw [← hd]
  exact allowedChar_replaceDisallowed d

theorem map_id_of_fixed {f : Char → Char} : ∀ {l : List Char},
    (∀ c ∈ l, f c = c) → l.map f = l
  | [], _ => rfl
  | c :: t, h => by
    rw [List.map_cons, h c (List.mem_cons_self _ _),
      map_id_of_fixed fun d hd => h d (List.mem_cons_of_mem c hd)]

/-- C8 helper: normalization is the identity on an already-normalized string. -/
theorem normalize_azure_name_fixed {s : String}
    (hall : ∀ c ∈ s.data, allowedChar c = true)
    (hdd : noDoubleDash s.data = true)
    (hhead : s.data.head? ≠ some '-')
    (hlast : s.data.getLast? ≠ some '-') :
    normalize_azure_name s = s := by
  rw [normalize_azure_name]
  rw [map_id_of_fixed fun c hc => toLower_of_allowedChar (hall c hc)]
  rw [map_id_of_fixed fun c hc => replaceDisallowed_of_allowedChar (hall c hc)]
  rw [collapseDashes_of_noDoubleDash _ hdd]
  rw [stripDashes, dropWhile_of_head?_ne hhead, dropTrailingDashes_of_getLast? _ hlast]

/-- C8: the §4.4 normalization algorithm is idempotent and its output never
has a leading dash, a trailing dash, or two consecutive dashes. -/
theorem C8_normalize_idempotent_and_shape (x : String) :
    normalize_azure_name (normalize_azure_name x) = normalize_azure_name x
    ∧ (normalize_azure_name x).data.head? ≠ some '-'
    ∧ (normalize_azure_name x).data.getLast? ≠ some '-'
    ∧ noDoubleDash (normalize_azure_name x).data = true := by
  have hd : (normalize_azure_name x).data
      = stripDashes (collapseDashes ((x.data.map Char.toLower).map replaceDisallowed)) := rfl
  have hhead : (normalize_azure_name x).data.head? ≠ some '-' := by
    rw [hd]; exact head?_stripDashes _
  have hlast : (normalize_azure_name x).data.getLast? ≠ some '-' := by
    rw [hd]; exact getLast?_stripDashes _
  have hdd : noDoubleDash (normalize_azure_name x).data = true := by
    rw [hd]; exact noDoubleDash_stripDashes (noDoubleDash_collapseDashes _)
  exact ⟨normalize_azure_name_fixed (fun c hc => allowedChar_mem_normalize hc) hdd hhead hlast,
    hhead, hlast, hdd⟩

theorem diffStep_eq (acc : List RelPath × List RelPath × List (RelPath × RelPath))
    (l : DiffLine) :
    diffStep acc l = (acc.1 ++ (amExtract l).toList, acc.2.1 ++ (dExtract l).toList,
      acc.2.2 ++ (renExtract l).toList) := by
  rcases acc with ⟨c, d, r⟩
  rw [diffStep, amExtract, dExtract, renExtract]
  cases l.fields with
  | nil => simp
  | cons p rest =>
    by_cases hD : l.status = "D"
    · simp [hD]
    · by_cases hR : l.status = "R"
      · cases rest <;> simp [hD, hR]
      · by_cases hAM : l.status = "A" ∨ l.status = "M"
        · simp [hD, hR, hAM]
        · simp [hD, hR, hAM]

theorem foldl_diffStep : ∀ (lines : List DiffLine)
    (acc : List RelPath × List RelPath × List (RelPath × RelPath)),
    lines.foldl diffStep acc =
      (acc.1 ++ lines.filterMap amExtract, acc.2.1 ++ lines.filterMap dExtract,
       acc.2.2 ++ lines.filterMap renExtract)
  | [], acc => by simp
  | l :: ls, acc => by
    rw [List.foldl_cons, foldl_diffStep ls, diffStep_eq]
    simp only [List.filterMap_cons]
    cases amExtract l <;> cases dExtract l <;> cases renExtract l <;>
      simp [List.append_assoc]

theorem get_changed_files_eq (env : Env) (h : ¬(get_comparison_ref env).1 = "") :
    get_changed_files env =
      (env.diff.filterMap amExtract, env.diff.filterMap dExtract,
       env.diff.filterMap renExtract) := by
  rw [get_changed_files, if_neg h, foldl_diffStep]
  simp

/-! ## Machinery: association-list grouping -/
theorem lookupKey_upsertWith {β : Type} (k q : RelPath) (f : β → β) (e : β)
    (acc : List (RelPath × β)) :
    lookupKey q (upsertWith k f e acc) =
      if q = k then some (f ((lookupKey k acc).getD e)) else lookupKey q acc := by
  induction acc with
  | nil =>
    by_cases hq : q = k
    · subst hq
      simp [upsertWith, lookupKey]
    · have hq' : ¬k = q := fun hc => hq hc.symm
      simp [upsertWith, lookupKey, hq, hq']
  | cons hd t ih =>
    rcases hd with ⟨k', v⟩
    by_cases hk : k' = k
    · subst hk
      by_cases hq : q = k'
      · subst hq
        simp [upsertWith, lookupKey]
      · have hq' : ¬k' = q := fun hc => hq hc.symm
        simp [upsertWith, lookupKey, hq, hq']
    · by_cases hq' : k' = q
      · subst hq'
        simp [upsertWith, lookupKey, hk]
      · by_cases hq : q = k
        · subst hq
          simp [upsertWith, lookupKey, hk, hq', ih]
        · simp [upsertWith, lookupKey, hk, hq', hq, ih]

theorem mem_keys_upsertWith {β : Type} {k x : RelPath} {f : β → β} {e : β}
    {acc : List (RelPath × β)} (h : x ∈ (upsertWith k f e acc).map Prod.fst) :
    x ∈ acc.map Prod.fst ∨ x = k := by
  induction acc with
  | nil =>
    rw [upsertWith, List.map_cons, List.map_nil] at h
    rcases List.mem_cons.1 h with h | h
    · exact Or.inr h
    · exact absurd h (List.not_mem_nil x)
  | cons hd t ih =>
    rcases hd with ⟨k', v⟩
    rw [upsertWith] at h
    split at h
    · rw [List.map_cons] at h
      rcases List.mem_cons.1 h with h | h
      · exact Or.inl (by rw [List.map_cons]; exact List.mem_cons.2 (Or.inl h))
      · exact Or.inl (by rw [List.map_cons]; exact List.mem_cons.2 (Or.inr h))
    · rw [List.map_cons] at h
      rcases List.mem_cons.1 h with h | h
      · exact Or.inl (by rw [List.map_cons]; exact List.mem_cons.2 (Or.inl h))
      · rcases ih h with h' | h'
        · exact Or.inl (by rw [List.map_cons]; exact List.mem_cons.2 (Or.inr h'))
        · exact Or.inr h'

theorem nodup_keys_upsertWith {β : Type} (k : RelPath) (f : β → β) (e : β) :
    ∀ acc : List (RelPath × β), (acc.map Prod.fst).Nodup →
      ((upsertWith k f e acc).map Prod.fst).Nodup
  | [], _ => by
    rw [upsertWith, List.map_cons, List.map_nil]
    exact List.nodup_singleton k
  | (k', v) :: t, h => by
    rw [List.map_cons, List.nodup_cons] at h
    rw [upsertWith]
    split
    · rw [List.map_cons, List.nodup_cons]
      exact h
    · rename_i hk
      rw [List.map_cons, List.nodup_cons]
      refine ⟨fun hc => ?_, nodup_keys_upsertWith k f e t h.2⟩
      rcases mem_keys_upsertWith hc with hc | hc
      · exact h.1 hc
      · exact hk hc

theorem upsertWith_forall {β : Type} (P : RelPath × β → Prop) (k : RelPath) (f : β → β)
    (e : β) (hf : ∀ v, P (k, v) → P (k, f v)) (he : P (k, f e)) :
    ∀ acc : List (RelPath × β), (∀ fg ∈ acc, P fg) →
      ∀ fg ∈ upsertWith k f e acc, P fg
  | [], _, fg, hfg => by
    rw [upsertWith] at hfg
    simp only [List.mem_singleton] at hfg
    exact hfg ▸ he
  | (k', v) :: t, hacc, fg, hfg => by
    rw [upsertWith] at hfg
    split at hfg
    · rename_i hk
      subst hk
      rcases List.mem_cons.1 hfg with h | h
      · exact h ▸ hf v (hacc _ (List.mem_cons_self _ _))
      · exact hacc _ (List.mem_cons_of_mem _ h)
    · rcases List.mem_cons.1 hfg with h | h
      · exact h ▸ hacc _ (List.mem_cons_self _ _)
      · exact upsertWith_forall P k f e hf he t
          (fun fg' hfg' => hacc _ (List.mem_cons_of_mem _ hfg')) fg h

theorem lookupKey_groupFold_aux {β : Type} (pred : RelPath → Bool) (add : RelPath → β → β)
    (e : β) (q : RelPath) :
    ∀ (files : List RelPath) (acc : List (RelPath × β)),
    lookupKey q (files.foldl (fun a p =>
        if pred p = false then a else upsertWith (parentDir p) (add p) e a) acc) =
      files.foldl (fun ov p =>
        if pred p = true ∧ parentDir p = q then some (add p (ov.getD e)) else ov)
        (lookupKey q acc)
  | [], acc => by simp
  | p :: fs, acc => by
    rw [List.foldl_cons, List.foldl_cons, lookupKey_groupFold_aux pred add e q fs]
    congr 1
    by_cases hp : pred p = false
    · rw [if_pos hp, if_neg (by simp [hp])]
    · rw [if_neg hp]
      rw [lookupKey_upsertWith]
      by_cases hq : q = parentDir p
      · rw [if_pos hq, if_pos ⟨by revert hp; cases pred p <;> simp, hq.symm⟩, hq]
      · rw [if_neg hq, if_neg (fun hc => hq hc.2.symm)]

theorem nodup_keys_groupFold {β : Type} (pred : RelPath → Bool) (add : RelPath → β → β)
    (e : β) (files : List RelPath) :
    ((groupFold pred add e files).map Prod.fst).Nodup := by
  rw [groupFold]
  suffices h : ∀ (fs : List RelPath) (acc : List (RelPath × β)), (acc.map Prod.fst).Nodup →
      ((fs.foldl (fun a p =>
        if pred p = false then a else upsertWith (parentDir p) (add p) e a) acc).map
          Prod.fst).Nodup from
    h files [] (by simp)
  intro fs
  induction fs with
  | nil => intro acc h; simpa using h
  | cons p fs ih =>
    intro acc h
    rw [List.foldl_cons]
    apply ih
    split
    · exact h
    · exact nodup_keys_upsertWith _ _ _ acc h

theorem groupFold_forall {β : Type} (pred : RelPath → Bool) (add : RelPath → β → β)
    (e : β) (P : RelPath × β → Prop) (files : List RelPath)
    (hf : ∀ p ∈ files, pred p = true → ∀ v, P (parentDir p, v) → P (parentDir p, add p v))
    (he : ∀ p ∈ files, pred p = true → P (parentDir p, add p e)) :
    ∀ fg ∈ groupFold pred add e files, P fg := by
  rw [groupFold]
  suffices h : ∀ (fs : List RelPath), (∀ p ∈ fs, p ∈ files) →
      ∀ (acc : List (RelPath × β)), (∀ fg ∈ acc, P fg) →
      ∀ fg ∈ fs.foldl (fun a p =>
        if pred p = false then a else upsertWith (parentDir p) (add p) e a) acc, P fg from
    h files (fun _ hp => hp) [] (by simp)
  intro fs
  induction fs with
  | nil => intro _ acc hacc fg hfg; exact hacc fg (by simpa using hfg)
  | cons p fs ih =>
    intro hsub acc hacc
    rw [List.foldl_cons]
    apply ih (fun x hx => hsub x (List.mem_cons_of_mem p hx))
    split
    · exact hacc
    · rename_i hp
      have hptrue : pred p = true := by revert hp; cases pred p <;> simp
      exact upsertWith_forall P (parentDir p) (add p) e
        (hf p (hsub p (List.mem_cons_self _ _)) hptrue)
        (he p (hsub p (List.mem_cons_self _ _)) hptrue) acc hacc

theorem filter_flatMap_key {β α : Type} (groups : List (RelPath × β))
    (recOf : RelPath × β → List α) (keyOf : α → RelPath) (folder : RelPath)
    (hkeys : (groups.map Prod.fst).Nodup)
    (hrec : ∀ fg ∈ groups, ∀ r ∈ recOf fg, keyOf r = fg.1) :
    (groups.flatMap recOf).filter (fun r => keyOf r == folder) =
      match lookupKey folder groups with
      | some v => recOf (folder, v)
      | none => [] := by
  induction groups with
  | nil => simp [lookupKey]
  | cons fg t ih =>
    rcases fg with ⟨k, v⟩
    simp only [List.map_cons, List.nodup_cons] at hkeys
    rw [List.flatMap_cons, List.filter_append, lookupKey]
    by_cases hk : k = folder
    · subst hk
      rw [if_pos rfl]
      have h1 : (recOf (k, v)).filter (fun r => keyOf r == k) = recOf (k, v) :=
        List.filter_eq_self.2 fun r hr => by
          simp [hrec (k, v) (List.mem_cons_self _ _) r hr]
      have h2 : (t.flatMap recOf).filter (fun r => keyOf r == k) = [] := by
        rw [List.filter_eq_nil_iff]
        intro r hr
        obtain ⟨fg', hfg', hrmem⟩ := List.mem_flatMap.1 hr
        have := hrec fg' (List.mem_cons_of_mem _ hfg') r hrmem
        simp only [this, beq_iff_eq]
        intro hc
        exact hkeys.1 (hc ▸ List.mem_map_of_mem Prod.fst hfg')
      rw [h1, h2, List.append_nil]
    · rw [if_neg hk]
      have h1 : (recOf (k, v)).filter (fun r => keyOf r == folder) = [] := by
        rw [List.filter_eq_nil_iff]
        intro r hr
        have := hrec (k, v) (List.mem_cons_self _ _) r hr
        simp [this, hk]
      rw [h1, List.nil_append]
      exact ih hkeys.2 fun fg' hfg' => hrec fg' (List.mem_cons_of_mem _ hfg')

theorem addDeletedV4_eq (p : RelPath) (g : DelGroup) :
    addDeletedV4 p g =
      { appConfigs := g.appConfigs ++ if isAppConfigName (fileName p) then [p] else []
        dockerfiles := g.dockerfiles ++
          if !isAppConfigName (fileName p) && isDockerfileName (fileName p) then [p]
          else [] } := by
  cases h1 : isAppConfigName (fileName p) <;> cases h2 : isDockerfileName (fileName p) <;>
    simp [addDeletedV4, h1, h2]

theorem delGroupForV4_cons_pos (env : Env) (folder : RelPath) (p : RelPath)
    (del : List RelPath) (hp : v4pred env p = true ∧ parentDir p = folder) :
    delGroupForV4 env folder (p :: del) =
      { appConfigs := (if isAppConfigName (fileName p) then [p] else [])
          ++ (delGroupForV4 env folder del).appConfigs
        dockerfiles := (if !isAppConfigName (fileName p) && isDockerfileName (fileName p)
            then [p] else [])
          ++ (delGroupForV4 env folder del).dockerfiles } := by
  have hb : (parentDir p == folder) = true := by simp [hp.2]
  cases h1 : isAppConfigName (fileName p) <;> cases h2 : isDockerfileName (fileName p) <;>
    simp [delGroupForV4, List.filter_cons, hp.1, hb, h1, h2]

theorem delGroupForV4_cons_neg (env : Env) (folder : RelPath) (p : RelPath)
    (del : List RelPath) (hp : ¬(v4pred env p = true ∧ parentDir p = folder)) :
    delGroupForV4 env folder (p :: del) = delGroupForV4 env folder del := by
  have hb : (v4pred env p && (parentDir p == folder)) = false := by
    cases h1 : v4pred env p
    · simp
    · cases h2 : parentDir p == folder
      · simp
      · exact absurd ⟨h1, by simpa using h2⟩ hp
  have hc : ∀ b : Bool, (v4pred env p && (parentDir p == folder) && b) = false := by
    intro b; rw [hb, Bool.false_and]
  have hd : ∀ b b' : Bool, (v4pred env p && (parentDir p == folder) && b && b') = false := by
    intro b b'; rw [hb, Bool.false_and, Bool.false_and]
  simp [delGroupForV4, List.filter_cons, hc, hd]

theorem v4fold_some (env : Env) (folder : RelPath) :
    ∀ (del : List RelPath) (g : DelGroup),
    del.foldl (v4step env folder) (some g) =
      some { appConfigs := g.appConfigs ++ (delGroupForV4 env folder del).appConfigs
             dockerfiles := g.dockerfiles ++ (delGroupForV4 env folder del).dockerfiles }
  | [], g => by simp [delGroupForV4]
  | p :: del, g => by
    rw [List.foldl_cons]
    by_cases hp : v4pred env p = true ∧ parentDir p = folder
    · rw [show v4step env folder (some g) p = some (addDeletedV4 p g) by
        rw [v4step, if_pos hp]; rfl]
      rw [v4fold_some env folder del (addDeletedV4 p g),
        delGroupForV4_cons_pos env folder p del hp, addDeletedV4_eq]
      simp [List.append_assoc]
    · rw [show v4step env folder (some g) p = some g by rw [v4step, if_neg hp]]
      rw [v4fold_some env folder del g, delGroupForV4_cons_neg env folder p del hp]

theorem v4fold_none (env : Env) (folder : RelPath) :
    ∀ del : List RelPath,
    del.foldl (v4step env folder) none =
      if del.any (fun p => v4pred env p && (parentDir p == folder)) then
        some (delGroupForV4 env folder del)
      else none
  | [] => by simp
  | p :: del => by
    rw [List.foldl_cons]
    by_cases hp : v4pred env p = true ∧ parentDir p = folder
    · rw [show v4step env folder none p = some (addDeletedV4 p emptyDelGroup) by
        rw [v4step, if_pos hp]; rfl]
      rw [v4fold_some env folder del (addDeletedV4 p emptyDelGroup),
        delGroupForV4_cons_pos env folder p del hp, addDeletedV4_eq]
      have ha : ((p :: del).any fun p => v4pred env p && (parentDir p == folder)) = true := by
        simp only [List.any_cons, Bool.or_eq_true]
        exact Or.inl (by simp [hp.1, hp.2])
      rw [ha]
      simp [emptyDelGroup, List.append_assoc]
    · rw [show v4step env folder none p = none by rw [v4step, if_neg hp]]
      rw [v4fold_none env folder del, delGroupForV4_cons_neg env folder p del hp]
      have ha : ((p :: del).any fun p => v4pred env p && (parentDir p == folder)) =
          (del.any fun p => v4pred env p && (parentDir p == folder)) := by
        simp only [List.any_cons]
        have hb : (v4pred env p && (parentDir p == folder)) = false := by
          cases h1 : v4pred env p
          · simp
          · cases h2 : parentDir p == folder
            · simp
            · exact absurd ⟨h1, by simpa using h2⟩ hp
        rw [hb, Bool.false_or]
      rw [ha]

theorem lookupKey_groupDeletedV4 (env : Env) (del : List RelPath) (folder : RelPath) :
    lookupKey folder (groupDeletedV4 env del) =
      if del.any (fun p => v4pred env p && (parentDir p == folder)) then
        some (delGroupForV4 env folder del)
      else none := by
  rw [groupDeletedV4, groupFold, lookupKey_groupFold_aux]
  have h0 : lookupKey folder ([] : List (RelPath × DelGroup)) = none := rfl
  rw [h0]
  have hstep : (fun (ov : Option DelGroup) (p : RelPath) =>
      if v4pred env p = true ∧ parentDir p = folder then
        some (addDeletedV4 p (ov.getD emptyDelGroup)) else ov) = v4step env folder := by
    funext ov p
    rw [v4step]
  rw [hstep, v4fold_none]

theorem mem_appConfigs_addDeletedV4 {p c : RelPath} {g : DelGroup}
    (h : c ∈ (addDeletedV4 p g).appConfigs) :
    c ∈ g.appConfigs ∨ (c = p ∧ isAppConfigName (fileName p) = true) := by
  by_cases h1 : isAppConfigName (fileName p) = true
  · rw [addDeletedV4, if_pos h1] at h
    rcases List.mem_append.1 h with h | h
    · exact Or.inl h
    · exact Or.inr ⟨List.mem_singleton.1 h, h1⟩
  · rw [addDeletedV4, if_neg h1] at h
    by_cases h2 : isDockerfileName (fileName p) = true
    · rw [if_pos h2] at h
      exact Or.inl h
    · rw [if_neg h2] at h
      exact Or.inl h

theorem mem_dockerfiles_addDeletedV4 {p d : RelPath} {g : DelGroup}
    (h : d ∈ (addDeletedV4 p g).dockerfiles) :
    d ∈ g.dockerfiles ∨ (d = p ∧ isDockerfileName (fileName p) = true) := by
  by_cases h1 : isAppConfigName (fileName p) = true
  · rw [addDeletedV4, if_pos h1] at h
    exact Or.inl h
  · rw [addDeletedV4, if_neg h1] at h
    by_cases h2 : isDockerfileName (fileName p) = true
    · rw [if_pos h2] at h
      rcases List.mem_append.1 h with h | h
      · exact Or.inl h
      · exact Or.inr ⟨List.mem_singleton.1 h, h2⟩
    · rw [if_neg h2] at h
      exact Or.inl h

theorem groupDeletedV4_inv (env : Env) (del : List RelPath) :
    ∀ fg ∈ groupDeletedV4 env del,
      (∀ c ∈ fg.2.appConfigs, c ∈ del ∧ parentDir c = fg.1
         ∧ isAppConfigName (fileName c) = true ∧ v4pred env c = true)
      ∧ (∀ d ∈ fg.2.dockerfiles, d ∈ del ∧ parentDir d = fg.1
         ∧ isDockerfileName (fileName d) = true ∧ v4pred env d = true) := by
  rw [groupDeletedV4]
  apply groupFold_forall (v4pred env) addDeletedV4 emptyDelGroup
    (fun fg =>
      (∀ c ∈ fg.2.appConfigs, c ∈ del ∧ parentDir c = fg.1
         ∧ isAppConfigName (fileName c) = true ∧ v4pred env c = true)
      ∧ (∀ d ∈ fg.2.dockerfiles, d ∈ del ∧ parentDir d = fg.1
         ∧ isDockerfileName (fileName d) = true ∧ v4pred env d = true))
  · intro p hp hpred v hv
    constructor
    · intro c hc
      rcases mem_appConfigs_addDeletedV4 hc with h | ⟨hcp, hcfg⟩
      · exact hv.1 c h
      · subst hcp; exact ⟨hp, rfl, hcfg, hpred⟩
    · intro d hd
      rcases mem_dockerfiles_addDeletedV4 hd with h | ⟨hdp, hdk⟩
      · exact hv.2 d h
      · subst hdp; exact ⟨hp, rfl, hdk, hpred⟩
  · intro p hp hpred
    constructor
    · intro c hc
      rcases mem_appConfigs_addDeletedV4 hc with h | ⟨hcp, hcfg⟩
      · exact absurd h (List.not_mem_nil c)
      · subst hcp; exact ⟨hp, rfl, hcfg, hpred⟩
    · intro d hd
      rcases mem_dockerfiles_addDeletedV4 hd with h | ⟨hdp, hdk⟩
      · exact absurd h (List.not_mem_nil d)
      · subst hdp; exact ⟨hp, rfl, hdk, hpred⟩

theorem deletionRecordsV4_apps_path (env : Env) (fg : RelPath × DelGroup) :
    ∀ r ∈ (deletionRecordsV4 env fg).1, r.path = fg.1 := by
  intro r hr
  obtain ⟨c, _, hc⟩ := List.mem_map.1 hr
  rw [← hc]

theorem nodup_keys_groupDeletedV4 (env : Env) (del : List RelPath) :
    ((groupDeletedV4 env del).map Prod.fst).Nodup := by
  rw [groupDeletedV4]
  exact nodup_keys_groupFold _ _ _ _

/-- C4 (amended): in the V4 pipeline a folder's Unit deletion records are
exactly one per deleted configuration file of that folder (carrying that
deleted path), independent of whether the folder was removed or still has
a live configuration; and its Artifact deletion records are exactly one
per deleted build-definition file.  In particular a folder whose deleted
batch contains no configuration yields *no* Unit record even when the
whole folder was removed, and a folder with a live configuration and a
deleted build-definition file yields an Artifact record and no Unit
record. -/
theorem C4_deleted_records_by_folder (env : Env) (del : List RelPath) (folder : RelPath) :
    ((analyze_deletions env del).1.filter fun r => r.path == folder) =
      ((del.filter fun p => v4pred env p && (parentDir p == folder)
          && isAppConfigName (fileName p)).map fun c =>
        { path := folder
          appName := normalize_azure_name (folderBaseName env.rootName folder)
          appConfig := c
          commitSha := none })
    ∧ ((analyze_deletions env del).2.filter fun r => parentDir r.dockerfile == folder) =
      ((del.filter fun p => v4pred env p && (parentDir p == folder)
          && !isAppConfigName (fileName p) && isDockerfileName (fileName p)).map fun d =>
        { appName := normalize_azure_name (folderBaseName env.rootName folder)
          containerName := lowerStr (composeName
            (normalize_azure_name (folderBaseName env.rootName folder))
            (dockerfileSuffix (fileName d)))
          dockerfile := d
          commitSha := none }) := by
  have h1 := filter_flatMap_key (groupDeletedV4 env del)
    (fun fg => (deletionRecordsV4 env fg).1) (fun r => r.path) folder
    (nodup_keys_groupDeletedV4 env del)
    (fun fg hfg r hr => deletionRecordsV4_apps_path env fg r hr)
  have h2 := filter_flatMap_key (groupDeletedV4 env del)
    (fun fg => (deletionRecordsV4 env fg).2) (fun r => parentDir r.dockerfile) folder
    (nodup_keys_groupDeletedV4 env del)
    (fun fg hfg r hr => by
      obtain ⟨d, hd, hdr⟩ := List.mem_map.1 hr
      rw [← hdr]
      exact ((groupDeletedV4_inv env del fg hfg).2 d hd).2.1)
  rw [lookupKey_groupDeletedV4] at h1 h2
  by_cases hany : (del.any fun p => v4pred env p && (parentDir p == folder)) = true
  · rw [if_pos hany] at h1 h2
    exact ⟨h1, h2⟩
  · rw [if_neg hany] at h1 h2
    have hfalse : (del.any fun p => v4pred env p && (parentDir p == folder)) = false := by
      revert hany
      cases (del.any fun p => v4pred env p && (parentDir p == folder)) <;> simp
    have hall : ∀ p ∈ del, ¬(v4pred env p && (parentDir p == folder)) = true :=
      List.any_eq_false.1 hfalse
    constructor
    · have hf : (del.filter fun p => v4pred env p && (parentDir p == folder)
          && isAppConfigName (fileName p)) = [] := by
        rw [List.filter_eq_nil_iff]
        intro p hp hcond
        rw [Bool.and_eq_true, Bool.and_eq_true] at hcond
        exact hall p hp (by rw [hcond.1.1, hcond.1.2]; rfl)
      rw [hf, List.map_nil]
      exact h1
    · have hf : (del.filter fun p => v4pred env p && (parentDir p == folder)
          && !isAppConfigName (fileName p) && isDockerfileName (fileName p)) = [] := by
        rw [List.filter_eq_nil_iff]
        intro p hp hcond
        rw [Bool.and_eq_true, Bool.and_eq_true, Bool.and_eq_true] at hcond
        exact hall p hp (by rw [hcond.1.1.1, hcond.1.1.2]; rfl)
      rw [hf, List.map_nil]
      exact h2

namespace V3

theorem addDeleted3_eq (p : RelPath) (g : DelGroup3) :
    addDeleted3 p g =
      { dockerfiles := g.dockerfiles ++
          if startsWithStr "Dockerfile" (fileName p) then [p] else []
        appConfigs := g.appConfigs ++
          if !startsWithStr "Dockerfile" (fileName p) && isAppConfigName (fileName p) then [p]
          else []
        otherFiles := g.otherFiles ++
          if !startsWithStr "Dockerfile" (fileName p) && !isAppConfigName (fileName p) then [p]
          else [] } := by
  cases h1 : startsWithStr "Dockerfile" (fileName p) <;>
    cases h2 : isAppConfigName (fileName p) <;>
    simp [addDeleted3, h1, h2]

theorem delGroupFor3_cons_pos (env : Env) (folder : RelPath) (p : RelPath)
    (del : List RelPath) (hp : v3pred env p = true ∧ parentDir p = folder) :
    delGroupFor3 env folder (p :: del) =
      { dockerfiles := (if startsWithStr "Dockerfile" (fileName p) then [p] else [])
          ++ (delGroupFor3 env folder del).dockerfiles
        appConfigs := (if !startsWithStr "Dockerfile" (fileName p)
              && isAppConfigName (fileName p) then [p] else [])
          ++ (delGroupFor3 env folder del).appConfigs
        otherFiles := (if !startsWithStr "Dockerfile" (fileName p)
              && !isAppConfigName (fileName p) then [p] else [])
          ++ (delGroupFor3 env folder del).otherFiles } := by
  have hb : (parentDir p == folder) = true := by simp [hp.2]
  cases h1 : startsWithStr "Dockerfile" (fileName p) <;>
    cases h2 : isAppConfigName (fileName p) <;>
    simp [delGroupFor3, List.filter_cons, hp.1, hb, h1, h2]

theorem delGroupFor3_cons_neg (env : Env) (folder : RelPath) (p : RelPath)
    (del : List RelPath) (hp : ¬(v3pred env p = true ∧ parentDir p = folder)) :
    delGroupFor3 env folder (p :: del) = delGroupFor3 env folder del := by
  have hb : (v3pred env p && (parentDir p == folder)) = false := by
    cases h1 : v3pred env p
    · simp
    · cases h2 : parentDir p == folder
      · simp
      · exact absurd ⟨h1, by simpa using h2⟩ hp
  have hc : ∀ b : Bool, (v3pred env p && (parentDir p == folder) && b) = false := by
    intro b; rw [hb, Bool.false_and]
  have hd : ∀ b b' : Bool, (v3pred env p && (parentDir p == folder) && b && b') = false := by
    intro b b'; rw [hb, Bool.false_and, Bool.false_and]
  simp [delGroupFor3, List.filter_cons, hc, hd]

theorem v3fold_some (env : Env) (folder : RelPath) :
    ∀ (del : List RelPath) (g : DelGroup3),
    del.foldl (v3step env folder) (some g) =
      some { dockerfiles := g.dockerfiles ++ (delGroupFor3 env folder del).dockerfiles
             appConfigs := g.appConfigs ++ (delGroupFor3 env folder del).appConfigs
             otherFiles := g.otherFiles ++ (delGroupFor3 env folder del).otherFiles }
  | [], g => by simp [delGroupFor3]
  | p :: del, g => by
    rw [List.foldl_cons]
    by_cases hp : v3pred env p = true ∧ parentDir p = folder
    · rw [show v3step env folder (some g) p = some (addDeleted3 p g) by
        rw [v3step, if_pos hp]; rfl]
      rw [v3fold_some env folder del (addDeleted3 p g),
        delGroupFor3_cons_pos env folder p del hp, addDeleted3_eq]
      simp [List.append_assoc]
    · rw [show v3step env folder (some g) p = some g by rw [v3step, if_neg hp]]
      rw [v3fold_some env folder del g, delGroupFor3_cons_neg env folder p del hp]

theorem v3fold_none (env : Env) (folder : RelPath) :
    ∀ del : List RelPath,
    del.foldl (v3step env folder) none =
      if del.any (fun p => v3pred env p && (parentDir p == folder)) then
        some (delGroupFor3 env folder del)
      else none
  | [] => by simp
  | p :: del => by
    rw [List.foldl_cons]
    by_cases hp : v3pred env p = true ∧ parentDir p = folder
    · rw [show v3step env folder none p = some (addDeleted3 p emptyDelGroup3) by
        rw [v3step, if_pos hp]; rfl]
      rw [v3fold_some env folder del (addDeleted3 p emptyDelGroup3),
        delGroupFor3_cons_pos env folder p del hp, addDeleted3_eq]
      have ha : ((p :: del).any fun p => v3pred env p && (parentDir p == folder)) = true := by
        simp only [List.any_cons, Bool.or_eq_true]
        exact Or.inl (by simp [hp.1, hp.2])
      rw [ha]
      simp [emptyDelGroup3, List.append_assoc]
    · rw [show v3step env folder none p = none by rw [v3step, if_neg hp]]
      rw [v3fold_none env folder del, delGroupFor3_cons_neg env folder p del hp]
      have hb : (v3pred env p && (parentDir p == folder)) = false := by
        cases h1 : v3pred env p
        · simp
        · cases h2 : parentDir p == folder
          · simp
          · exact absurd ⟨h1, by simpa using h2⟩ hp
      have ha : ((p :: del).any fun p => v3pred env p && (parentDir p == folder)) =
          (del.any fun p => v3pred env p && (parentDir p == folder)) := by
        simp only [List.any_cons]
        rw [hb, Bool.false_or]
      rw [ha]

theorem lookupKey_groupDeleted3 (env : Env) (del : List RelPath) (folder : RelPath) :
    lookupKey folder (groupDeleted3 env del) =
      if del.any (fun p => v3pred env p && (parentDir p == folder)) then
        some (delGroupFor3 env folder del)
      else none := by
  rw [groupDeleted3, groupFold, lookupKey_groupFold_aux]
  have h0 : lookupKey folder ([] : List (RelPath × DelGroup3)) = none := rfl
  rw [h0]
  have hstep : (fun (ov : Option DelGroup3) (p : RelPath) =>
      if v3pred env p = true ∧ parentDir p = folder then
        some (addDeleted3 p (ov.getD emptyDelGroup3)) else ov) = v3step env folder := by
    funext ov p
    rw [v3step]
  rw [hstep, v3fold_none]

theorem mem_dockerfiles_addDeleted3 {p d : RelPath} {g : DelGroup3}
    (h : d ∈ (addDeleted3 p g).dockerfiles) :
    d ∈ g.dockerfiles ∨ (d = p ∧ startsWithStr "Dockerfile" (fileName p) = true) := by
  by_cases h1 : startsWithStr "Dockerfile" (fileName p) = true
  · rw [addDeleted3, if_pos h1] at h
    rcases List.mem_append.1 h with h | h
    · exact Or.inl h
    · exact Or.inr ⟨List.mem_singleton.1 h, h1⟩
  · rw [addDeleted3, if_neg h1] at h
    by_cases h2 : isAppConfigName (fileName p) = true
    · rw [if_pos h2] at h
      exact Or.inl h
    · rw [if_neg h2] at h
      exact Or.inl h

theorem groupDeleted3_dockerfiles_parent (env : Env) (del : List RelPath) :
    ∀ fg ∈ groupDeleted3 env del, ∀ d ∈ fg.2.dockerfiles, parentDir d = fg.1 := by
  rw [groupDeleted3]
  apply groupFold_forall (v3pred env) addDeleted3 emptyDelGroup3
    (fun fg => ∀ d ∈ fg.2.dockerfiles, parentDir d = fg.1)
  · intro p _ _ v hv d hd
    rcases mem_dockerfiles_addDeleted3 hd with h | ⟨hdp, _⟩
    · exact hv d h
    · subst hdp; rfl
  · intro p _ _ d hd
    rcases mem_dockerfiles_addDeleted3 hd with h | ⟨hdp, _⟩
    · exact absurd h (List.not_mem_nil d)
    · subst hdp; rfl

theorem nodup_keys_groupDeleted3 (env : Env) (del : List RelPath) :
    ((groupDeleted3 env del).map Prod.fst).Nodup := by
  rw [groupDeleted3]
  exact nodup_keys_groupFold _ _ _ _

theorem deletionRecords3_apps_path (env : Env) (fg : RelPath × DelGroup3) :
    ∀ r ∈ (deletionRecords3 env fg).1, r.path = fg.1 := by
  intro r hr
  rw [deletionRecords3] at hr
  split at hr
  · rw [List.mem_singleton.1 hr]
  · revert hr
    cases fg.2.appConfigs with
    | nil => intro hr; exact absurd hr (List.not_mem_nil r)
    | cons c cs => intro hr; rw [List.mem_singleton.1 hr]

theorem deletionRecords3_conts_parent (env : Env) (del : List RelPath) :
    ∀ fg ∈ groupDeleted3 env del, ∀ r ∈ (deletionRecords3 env fg).2,
      parentDir r.dockerfile = fg.1 := by
  intro fg hfg r hr
  have hpar := groupDeleted3_dockerfiles_parent env del fg hfg
  rw [deletionRecords3] at hr
  split at hr
  · obtain ⟨d, hd, hdr⟩ := List.mem_map.1 hr
    rw [← hdr]
    exact hpar d hd
  · obtain ⟨d, hd, hdr⟩ := List.mem_map.1 hr
    rw [← hdr]
    exact hpar d hd

end V3

theorem filter_beq_and_eq_singleton {l : List RelPath} (hnd : l.Nodup) {d : RelPath}
    (hd : d ∈ l) {q : RelPath → Bool} (hq : q d = true) :
    l.filter (fun p => (p == d) && q p) = [d] := by
  induction l with
  | nil => exact absurd hd (List.not_mem_nil d)
  | cons a t ih =>
    rw [List.nodup_cons] at hnd
    rw [List.filter_cons]
    by_cases had : a = d
    · subst had
      rw [if_pos (by rw [hq]; simp)]
      have ht : t.filter (fun p => (p == a) && q p) = [] := by
        rw [List.filter_eq_nil_iff]
        intro p hp hc
        rw [Bool.and_eq_true, beq_iff_eq] at hc
        exact hnd.1 (hc.1 ▸ hp)
      rw [ht]
    · have hdt : d ∈ t := by
        rcases List.mem_cons.1 hd with h | h
        · exact absurd h.symm had
        · exact h
      rw [if_neg (by
        intro hc
        rw [Bool.and_eq_true, beq_iff_eq] at hc
        exact had hc.1)]
      exact ih hnd.2 hdt

/-- C1: in the V3 deletion classifier, a folder that no longer exists on
disk and had at least one recognized file deleted yields exactly one Unit
deletion record — its configuration path being the first deleted
configuration observed, defaulting to `folder/app.yaml` — and exactly one
Artifact deletion record per deleted build-definition file of that
folder. -/
theorem C1_whole_folder_deletion (env : Env) (del : List RelPath) (folder : RelPath)
    (hdir : env.dirExists folder = false)
    (hrec : (del.any fun p => V3.v3pred env p && (parentDir p == folder)
        && (startsWithStr "Dockerfile" (fileName p) || isAppConfigName (fileName p))) = true) :
    ((V3.analyze_deletions env del).1.filter fun r => r.path == folder) =
      [{ path := folder
         appName := fileName folder
         appConfig := ((del.filter fun p => V3.v3pred env p && (parentDir p == folder)
             && !startsWithStr "Dockerfile" (fileName p)
             && isAppConfigName (fileName p)).head?).getD (folder ++ ["app.yaml"])
         commitSha := none }]
    ∧ ((V3.analyze_deletions env del).2.filter fun r => parentDir r.dockerfile == folder) =
      ((del.filter fun p => V3.v3pred env p && (parentDir p == folder)
          && startsWithStr "Dockerfile" (fileName p)).map fun d =>
        { appName := fileName folder
          containerName := V3.get_container_name env (fileName folder)
            (dockerfileSuffix (fileName d))
            ((del.filter fun p => V3.v3pred env p && (parentDir p == folder)
                && !startsWithStr "Dockerfile" (fileName p)
                && isAppConfigName (fileName p)).head?)
          dockerfile := d
          commitSha := none }) := by
  have hany : (del.any fun p => V3.v3pred env p && (parentDir p == folder)) = true := by
    obtain ⟨p, hp, hc⟩ := List.any_eq_true.1 hrec
    rw [Bool.and_eq_true] at hc
    exact List.any_eq_true.2 ⟨p, hp, hc.1⟩
  have h1 := filter_flatMap_key (V3.groupDeleted3 env del)
    (fun fg => (V3.deletionRecords3 env fg).1) (fun r => r.path) folder
    (V3.nodup_keys_groupDeleted3 env del)
    (fun fg _ r hr => V3.deletionRecords3_apps_path env fg r hr)
  have h2 := filter_flatMap_key (V3.groupDeleted3 env del)
    (fun fg => (V3.deletionRecords3 env fg).2) (fun r => parentDir r.dockerfile) folder
    (V3.nodup_keys_groupDeleted3 env del)
    (V3.deletionRecords3_conts_parent env del)
  rw [V3.lookupKey_groupDeleted3, if_pos hany] at h1 h2
  have h1' : ((V3.analyze_deletions env del).1.filter fun r => r.path == folder)
      = (V3.deletionRecords3 env (folder, V3.delGroupFor3 env folder del)).1 := h1
  have h2' : ((V3.analyze_deletions env del).2.filter fun r => parentDir r.dockerfile == folder)
      = (V3.deletionRecords3 env (folder, V3.delGroupFor3 env folder del)).2 := h2
  constructor
  · rw [h1', V3.deletionRecords3, if_pos hdir]
    rfl
  · rw [h2', V3.deletionRecords3, if_pos hdir]
    rfl

/-- C2 (amended): in the V3 deletion classifier, when a folder still
exists, none of its configuration files were deleted, and its live
configuration declares a non-empty name `n`, the Artifact deletion record
for a deleted build-definition file composes the container name from `n`
(the current declared name, not the folder-derived name) — but only
lowercases the composition; the full dash-normalization of the claim is
not applied. -/
theorem C2_artifact_uses_declared_name (env : Env) (del : List RelPath)
    (folder d cfg : RelPath) (n : String)
    (hnodup : del.Nodup)
    (hdir : env.dirExists folder = true)
    (hnocfg : (del.filter fun p => V3.v3pred env p && (parentDir p == folder)
        && !startsWithStr "Dockerfile" (fileName p) && isAppConfigName (fileName p)) = [])
    (hfind : V3.find_app_yaml env folder = some cfg)
    (hyaml : env.readYamlName cfg = some n)
    (hn : ¬n = "")
    (hd : d ∈ del)
    (hpd : V3.v3pred env d = true)
    (hpar : parentDir d = folder)
    (hdock : startsWithStr "Dockerfile" (fileName d) = true) :
    ((V3.analyze_deletions env del).2.filter fun r => r.dockerfile == d) =
      [{ appName := fileName folder
         containerName := lowerStr (composeName n (dockerfileSuffix (fileName d)))
         dockerfile := d
         commitSha := none }] := by
  have hany : (del.any fun p => V3.v3pred env p && (parentDir p == folder)) = true :=
    List.any_eq_true.2 ⟨d, hd, by rw [hpd, hpar]; simp⟩
  have h2 := filter_flatMap_key (V3.groupDeleted3 env del)
    (fun fg => (V3.deletionRecords3 env fg).2) (fun r => parentDir r.dockerfile) folder
    (V3.nodup_keys_groupDeleted3 env del)
    (V3.deletionRecords3_conts_parent env del)
  rw [V3.lookupKey_groupDeleted3, if_pos hany] at h2
  have h2' : ((V3.analyze_deletions env del).2.filter fun r => parentDir r.dockerfile == folder)
      = (V3.deletionRecords3 env (folder, V3.delGroupFor3 env folder del)).2 := h2
  -- restrict the dockerfile-keyed filter through the folder-keyed one
  have hstepA : ((V3.analyze_deletions env del).2.filter fun r => r.dockerfile == d) =
      (((V3.analyze_deletions env del).2.filter
          fun r => parentDir r.dockerfile == folder).filter fun r => r.dockerfile == d) := by
    rw [List.filter_filter]
    apply List.filter_congr
    intro r _
    cases hrd : (r.dockerfile == d)
    · rw [Bool.false_and]
    · have : r.dockerfile = d := by simpa using hrd
      rw [this, hpar]
      simp
  rw [hstepA, h2']
  -- the folder's records come from the still-exists branch
  have hcond : ¬(env.dirExists folder = false) := by rw [hdir]; simp
  rw [V3.deletionRecords3, if_neg hcond]
  -- the deleted-config list of this folder's batch is empty
  have hcfgs : (V3.delGroupFor3 env folder del).appConfigs = [] := hnocfg
  rw [show (folder, V3.delGroupFor3 env folder del).2 = V3.delGroupFor3 env folder del
    from rfl]
  rw [hcfgs]
  rw [List.filter_map]
  have hcomp : ((fun r : DeletedContainer => r.dockerfile == d) ∘ fun d' =>
      ({ appName := fileName (folder, V3.delGroupFor3 env folder del).1
         containerName := V3.get_container_name env
           (fileName (folder, V3.delGroupFor3 env folder del).1)
           (dockerfileSuffix (fileName d'))
           (match ([] : List RelPath).head? with
            | some c => some c
            | none => V3.find_app_yaml env (folder, V3.delGroupFor3 env folder del).1)
         dockerfile := d'
         commitSha := none } : DeletedContainer)) = fun d' => d' == d := by
    funext d'
    rfl
  rw [hcomp]
  have hdf : (V3.delGroupFor3 env folder del).dockerfiles.filter (fun d' => d' == d)
      = [d] := by
    show (del.filter fun p => V3.v3pred env p && (parentDir p == folder)
        && startsWithStr "Dockerfile" (fileName p)).filter (fun d' => d' == d) = [d]
    rw [List.filter_filter]
    exact filter_beq_and_eq_singleton hnodup hd
      (by rw [hpd, hpar, hdock]; simp)
  rw [hdf, List.map_cons, List.map_nil]
  rw [show (match ([] : List RelPath).head? with
      | some c => some c
      | none => V3.find_app_yaml env (folder, V3.delGroupFor3 env folder del).1)
    = V3.find_app_yaml env folder from rfl]
  simp only [V3.get_container_name, V3.get_app_name_from_yaml, hfind, Option.some_bind,
    hyaml, orElseStr, hn, if_false]

/-! ## Machinery: lowercase idempotence -/
theorem toNat_ofNat_valid {n : Nat} (h : Nat.isValidChar n) : (Char.ofNat n).toNat = n := by
  rw [Char.ofNat, dif_pos h]
  simp [Char.ofNatAux, Char.toNat, UInt32.toNat, BitVec.toNat_ofNatLt]

theorem toLower_toLower (c : Char) : Char.toLower (Char.toLower c) = Char.toLower c := by
  by_cases h : c.toNat ≥ 65 ∧ c.toNat ≤ 90
  · have h1 : Char.toLower c = Char.ofNat (c.toNat + 32) := by rw [Char.toLower, if_pos h]
    have hv : Nat.isValidChar (c.toNat + 32) := Or.inl (by omega)
    have ht : (Char.ofNat (c.toNat + 32)).toNat = c.toNat + 32 := toNat_ofNat_valid hv
    rw [h1, Char.toLower, ht, if_neg (by omega)]
  · have h1 : Char.toLower c = c := by rw [Char.toLower, if_neg h]
    rw [h1, h1]

theorem lowerStr_idem (s : String) : lowerStr (lowerStr s) = lowerStr s := by
  show String.mk ((s.data.map Char.toLower).map Char.toLower) = String.mk (s.data.map Char.toLower)
  rw [List.map_map]
  have hmap : ∀ l : List Char, l.map (Char.toLower ∘ Char.toLower) = l.map Char.toLower := by
    intro l
    induction l with
    | nil => rfl
    | cons a t ih => simp [Function.comp, toLower_toLower, ih]
  rw [hmap]

/-- C3 (amended): every container record emitted by the matrix generator
has `containerName` equal to the *lowercased* composition of the unit's
`appName` with the artifact suffix — lowercasing only, not the full §4.4
normalization — and in particular the emitted name is always lowercase. -/
theorem C3_container_names_lowercase_composed (env : Env) (c : ContainerItem)
    (hc : c ∈ (generate_matrix_output env).containers.all) :
    c.containerName = lowerStr (composeName c.appName c.dockerfile.suffix)
    ∧ lowerStr c.containerName = c.containerName := by
  have hc' : c ∈ allContainersOf env := hc
  rw [allContainersOf] at hc'
  obtain ⟨e, he, hmem⟩ := List.mem_flatMap.1 hc'
  obtain ⟨df, hdf, hceq⟩ := List.mem_map.1 hmem
  subst hceq
  exact ⟨rfl, lowerStr_idem _⟩

/-- C5: `updated ⊆ all` for both apps and containers, and membership in
`updated` holds exactly when some added/modified path has the unit's
folder as its *direct* parent (so a change in a strictly nested subfolder
does not mark the unit). -/
theorem C5_partition_and_direct_parent (env : Env) (a : AppItem) (c : ContainerItem) :
    (a ∈ (generate_matrix_output env).apps.updated →
      a ∈ (generate_matrix_output env).apps.all)
    ∧ (a ∈ (generate_matrix_output env).apps.updated ↔
        a ∈ (generate_matrix_output env).apps.all
          ∧ folder_has_changes a.path (changedOf env) = true)
    ∧ (c ∈ (generate_matrix_output env).containers.updated →
        c ∈ (generate_matrix_output env).containers.all)
    ∧ (c ∈ (generate_matrix_output env).containers.updated ↔
        c ∈ (generate_matrix_output env).containers.all
          ∧ folder_has_changes c.path (changedOf env) = true)
    ∧ (folder_has_changes a.path (changedOf env) = true ↔
        ∃ f ∈ changedOf env, parentDir f = a.path) := by
  have happs : (a ∈ updatedAppsOf env ↔
      a ∈ allAppsOf env ∧ folder_has_changes a.path (changedOf env) = true) := by
    constructor
    · intro h
      rw [updatedAppsOf] at h
      obtain ⟨e, he, hfe⟩ := List.mem_filterMap.1 h
      rw [List.mem_filter] at he
      obtain ⟨c0, hc0, hmk⟩ := Option.map_eq_some'.1 hfe
      refine ⟨List.mem_filterMap.2 ⟨e, he.1, hfe⟩, ?_⟩
      have hpath : a.path = e.path := by rw [← hmk]; rfl
      rw [hpath]
      exact he.2
    · intro ⟨hall, hch⟩
      rw [allAppsOf] at hall
      obtain ⟨e, he, hfe⟩ := List.mem_filterMap.1 hall
      obtain ⟨c0, hc0, hmk⟩ := Option.map_eq_some'.1 hfe
      have hpath : a.path = e.path := by rw [← hmk]; rfl
      rw [updatedAppsOf]
      exact List.mem_filterMap.2 ⟨e, List.mem_filter.2 ⟨he, by rw [← hpath]; exact hch⟩, hfe⟩
  have hconts : (c ∈ updatedContainersOf env ↔
      c ∈ allContainersOf env ∧ folder_has_changes c.path (changedOf env) = true) := by
    constructor
    · intro h
      rw [updatedContainersOf] at h
      obtain ⟨e, he, hmem⟩ := List.mem_flatMap.1 h
      rw [List.mem_filter] at he
      obtain ⟨df, hdf, hceq⟩ := List.mem_map.1 hmem
      refine ⟨List.mem_flatMap.2 ⟨e, he.1, hmem⟩, ?_⟩
      have hpath : c.path = e.path := by rw [← hceq]; rfl
      rw [hpath]
      exact he.2
    · intro ⟨hall, hch⟩
      rw [allContainersOf] at hall
      obtain ⟨e, he, hmem⟩ := List.mem_flatMap.1 hall
      obtain ⟨df, hdf, hceq⟩ := List.mem_map.1 hmem
      have hpath : c.path = e.path := by rw [← hceq]; rfl
      rw [updatedContainersOf]
      exact List.mem_flatMap.2 ⟨e, List.mem_filter.2 ⟨he, by rw [← hpath]; exact hch⟩, hmem⟩
  refine ⟨fun h => (happs.1 h).1, happs, fun h => (hconts.1 h).1, hconts, ?_⟩
  rw [folder_has_changes, List.any_eq_true]
  constructor
  · intro ⟨f, hf, hb⟩
    exact ⟨f, hf, by simpa using hb⟩
  · intro ⟨f, hf, hb⟩
    exact ⟨f, hf, by simp [hb]⟩

/-! ## Machinery: diff-record extraction facts -/
theorem dExtract_some {l : DiffLine} {p : RelPath} (h : dExtract l = some p) :
    l.status = "D" ∧ l.fields.head? = some p ∧ l.fields ≠ [] := by
  rcases l with ⟨st, fields⟩
  cases fields with
  | nil => exact absurd h (by simp [dExtract])
  | cons q rest =>
    have h' : (if st = "D" then some q else none) = some p := h
    by_cases hD : st = "D"
    · rw [if_pos hD] at h'
      exact ⟨hD, by rw [List.head?_cons, Option.some.inj h'], by simp⟩
    · rw [if_neg hD] at h'
      exact absurd h' (by simp)

theorem amExtract_some {l : DiffLine} {p : RelPath} (h : amExtract l = some p) :
    (l.status = "R" ∧ l.fields.tail.head? = some p)
    ∨ ((l.status = "A" ∨ l.status = "M") ∧ l.fields.head? = some p) := by
  rcases l with ⟨st, fields⟩
  cases fields with
  | nil => exact absurd h (by simp [amExtract])
  | cons q rest =>
    have h' : (if st = "D" then none else if st = "R" then rest.head?
        else if st = "A" ∨ st = "M" then some q else none) = some p := h
    by_cases hD : st = "D"
    · rw [if_pos hD] at h'
      exact absurd h' (by simp)
    · rw [if_neg hD] at h'
      by_cases hR : st = "R"
      · rw [if_pos hR] at h'
        exact Or.inl ⟨hR, h'⟩
      · rw [if_neg hR] at h'
        by_cases hAM : st = "A" ∨ st = "M"
        · rw [if_pos hAM] at h'
          exact Or.inr ⟨hAM, by rw [List.head?_cons, Option.some.inj h']⟩
        · rw [if_neg hAM] at h'
          exact absurd h' (by simp)

/-- C6: a `Renamed` diff record contributes its destination to the
added/modified collection and its mapping to the rename map; under diff
well-formedness its old path never reaches `deleted`, the added/modified
and deleted collections are disjoint, and the rename destination drives
`folder_has_changes` exactly like an added/modified path. -/
theorem C6_rename_transparency (env : Env) (o n : RelPath) (rest : List RelPath)
    (folder : RelPath)
    (href : ¬(get_comparison_ref env).1 = "")
    (hline : ({ status := "R", fields := o :: n :: rest } : DiffLine) ∈ env.diff)
    (hwf : wfDiff env)
    (hpar : parentDir n = folder) :
    n ∈ changedOf env
    ∧ (o, n) ∈ (get_changed_files env).2.2
    ∧ o ∉ deletedOf env
    ∧ List.Disjoint (changedOf env) (deletedOf env)
    ∧ folder_has_changes folder (changedOf env) = true := by
  have hgc := get_changed_files_eq env href
  have hch : changedOf env = env.diff.filterMap amExtract := by
    rw [changedOf, hgc]
  have hdel : deletedOf env = env.diff.filterMap dExtract := by
    rw [deletedOf, hgc]
  have hren : (get_changed_files env).2.2 = env.diff.filterMap renExtract := by
    rw [hgc]
  have hn : n ∈ changedOf env := by
    rw [hch]
    exact List.mem_filterMap.2 ⟨_, hline, rfl⟩
  have hdisj : List.Disjoint (changedOf env) (deletedOf env) := by
    intro p hp hpd
    rw [hch] at hp
    rw [hdel] at hpd
    obtain ⟨l', hl', ham⟩ := List.mem_filterMap.1 hp
    obtain ⟨l, hl, hdl⟩ := List.mem_filterMap.1 hpd
    obtain ⟨hD, hhead, hne⟩ := dExtract_some hdl
    rcases amExtract_some ham with ⟨hR, htail⟩ | ⟨hAM, hhead'⟩
    · exact (hwf l hl l' hl' hD hne).2 hR (by rw [htail, hhead])
    · exact (hwf l hl l' hl' hD hne).1
        (by rcases hAM with h | h; exact Or.inl h; exact Or.inr (Or.inl h))
        (by rw [hhead', hhead])
  refine ⟨hn, ?_, ?_, hdisj, ?_⟩
  · rw [hren]
    exact List.mem_filterMap.2 ⟨_, hline, rfl⟩
  · intro ho
    rw [hdel] at ho
    obtain ⟨l, hl, hdl⟩ := List.mem_filterMap.1 ho
    obtain ⟨hD, hhead, hne⟩ := dExtract_some hdl
    exact (hwf l hl _ hline hD hne).1 (Or.inr (Or.inr rfl)) (by rw [hhead]; rfl)
  · rw [folder_has_changes]
    exact List.any_eq_true.2 ⟨n, hn, by rw [hpar]; simp⟩

theorem inventory_entry_has_file (env : Env) (cfgs dfs : List RelPath) :
    ∀ e ∈ build_unified_inventory env cfgs dfs,
      e.appConfig.isSome = true ∨ e.dockerfiles ≠ [] := by
  intro e he
  rw [build_unified_inventory] at he
  obtain ⟨fv, _, hsome⟩ := List.mem_filterMap.1 he
  by_cases h1 : fv.2.appConfig = none ∧ fv.2.dockerfiles = []
  · rw [if_pos h1] at hsome
    exact absurd hsome (by simp)
  · rw [if_neg h1] at hsome
    by_cases h2 : should_include_path (normalize_pattern env.includePat) env.excludePat fv.1
        = false
    · rw [if_pos h2] at hsome
      exact absurd hsome (by simp)
    · rw [if_neg h2] at hsome
      have he' := Option.some.inj hsome
      rw [← he']
      rcases not_and_or.1 h1 with h | h
      · exact Or.inl (Option.isSome_iff_ne_none.2 h)
      · exact Or.inr fun hc => h (List.map_eq_nil_iff.1 hc)

/-- C7: on a manual (`workflow_dispatch`) run there is no comparison
reference, so all three change collections are empty, the matrix has
empty `updated`/`deleted` lists and false `hasUpdates`/`hasDeletions`
flags for both entity kinds, while the `all` lists carry the full
discovered inventory — jointly non-empty whenever the inventory is. -/
theorem C7_manual_trigger (env : Env) (e : InvEntry) (c0 : RelPath) (df : DockerfileInfo)
    (hev : env.eventName = "workflow_dispatch") :
    changedOf env = [] ∧ deletedOf env = []
    ∧ (get_changed_files env).2.2 = []
    ∧ (generate_matrix_output env).apps.updated = []
    ∧ (generate_matrix_output env).containers.updated = []
    ∧ (generate_matrix_output env).apps.deleted = []
    ∧ (generate_matrix_output env).containers.deleted = []
    ∧ (generate_matrix_output env).apps.hasUpdates = false
    ∧ (generate_matrix_output env).apps.hasDeletions = false
    ∧ (generate_matrix_output env).containers.hasUpdates = false
    ∧ (generate_matrix_output env).containers.hasDeletions = false
    ∧ (e ∈ inventoryOf env → e.appConfig = some c0 →
        mkAppItem e c0 ∈ (generate_matrix_output env).apps.all)
    ∧ (e ∈ inventoryOf env → df ∈ e.dockerfiles →
        mkContainerItem env e df ∈ (generate_matrix_output env).containers.all)
    ∧ (inventoryOf env ≠ [] →
        (generate_matrix_output env).apps.all ≠ []
          ∨ (generate_matrix_output env).containers.all ≠ []) := by
  have hcr : get_comparison_ref env = ("", none) := by
    have h1 : ¬env.eventName = "pull_request" := by rw [hev]; decide
    rw [get_comparison_ref, if_neg h1, if_pos hev]
  have hgc : get_changed_files env = ([], [], []) := by
    rw [get_changed_files, hcr]
    simp
  have hch0 : changedOf env = [] := by rw [changedOf, hgc]
  have hdel0 : deletedOf env = [] := by rw [deletedOf, hgc]
  have hfilter0 : (inventoryOf env).filter (fun e' => folder_has_changes e'.path []) = [] :=
    List.filter_eq_nil_iff.2 (fun e' _ => by rw [folder_has_changes]; simp)
  have hupd : updatedAppsOf env = [] := by
    rw [updatedAppsOf, hch0, hfilter0]
    rfl
  have hupdc : updatedContainersOf env = [] := by
    rw [updatedContainersOf, hch0, hfilter0]
    rfl
  have hda : deletedAppsOf env = [] := by
    rw [deletedAppsOf, hcr, hdel0]
    rfl
  have hdc : deletedContainersOf env = [] := by
    rw [deletedContainersOf, hcr, hdel0]
    rfl
  refine ⟨hch0, hdel0, by rw [hgc], hupd, hupdc, hda, hdc,
    by show (!(updatedAppsOf env).isEmpty) = false; rw [hupd]; rfl,
    by show (!(deletedAppsOf env).isEmpty) = false; rw [hda]; rfl,
    by show (!(updatedContainersOf env).isEmpty) = false; rw [hupdc]; rfl,
    by show (!(deletedContainersOf env).isEmpty) = false; rw [hdc]; rfl,
    ?_, ?_, ?_⟩
  · intro he hc
    show mkAppItem e c0 ∈ allAppsOf env
    rw [allAppsOf]
    exact List.mem_filterMap.2 ⟨e, he, by rw [hc]; rfl⟩
  · intro he hdf
    show mkContainerItem env e df ∈ allContainersOf env
    rw [allContainersOf]
    exact List.mem_flatMap.2 ⟨e, he, List.mem_map_of_mem _ hdf⟩
  · intro hne
    cases hinv : inventoryOf env with
    | nil => exact absurd hinv hne
    | cons e0 t =>
      have he0 : e0 ∈ inventoryOf env := by rw [hinv]; exact List.mem_cons_self _ _
      have hfile := inventory_entry_has_file env (discover_files env.tree).1
        (discover_files env.tree).2 e0 he0
      rcases hfile with h | h
      · obtain ⟨c1, hc1⟩ := Option.isSome_iff_exists.1 h
        refine Or.inl (List.ne_nil_of_mem (a := mkAppItem e0 c1) ?_)
        show mkAppItem e0 c1 ∈ allAppsOf env
        rw [allAppsOf]
        exact List.mem_filterMap.2 ⟨e0, he0, by rw [hc1]; rfl⟩
      · obtain ⟨df0, hdf0⟩ := List.exists_mem_of_ne_nil _ h
        refine Or.inr (List.ne_nil_of_mem (a := mkContainerItem env e0 df0) ?_)
        show mkContainerItem env e0 df0 ∈ allContainersOf env
        rw [allContainersOf]
        exact List.mem_flatMap.2 ⟨e0, he0, List.mem_map_of_mem _ hdf0⟩

/-- C9: the include/exclude pair is matched against the *folder* path when
building the inventory but against the deleted *file* path in the
deletion classifier.  With include `*/frontend` the folder is admitted to
the live inventory while every deleted file inside it is filtered out of
deletion classification; with include `*/frontend/*` the opposite
happens. -/
theorem C9_patterns_match_different_strings :
    should_include_path (normalize_pattern envC9a.includePat) envC9a.excludePat
      ["apps", "frontend"] = true
    ∧ should_include_path (normalize_pattern envC9a.includePat) envC9a.excludePat
      ["apps", "frontend", "app.yaml"] = false
    ∧ ((inventoryOf envC9a).map fun e => e.path) = [["apps", "frontend"]]
    ∧ analyze_deletions envC9a
        [["apps", "frontend", "app.yaml"], ["apps", "frontend", "Dockerfile"]] = ([], [])
    ∧ should_include_path (normalize_pattern envC9b.includePat) envC9b.excludePat
      ["apps", "frontend"] = false
    ∧ should_include_path (normalize_pattern envC9b.includePat) envC9b.excludePat
      ["apps", "frontend", "Dockerfile"] = true
    ∧ inventoryOf envC9b = []
    ∧ (analyze_deletions envC9b [["apps", "frontend", "Dockerfile"]]).2 ≠ [] := by
  decide

/-- C3 is false as stated: the code only lowercases the composed name, so
a declared name `My App` yields container name `my app`, not the
normalized `my-app`, and the emitted name is not a DNS-label-like
identifier. -/
theorem C3_counterexample :
    ((generate_matrix_output envC3x).containers.all.map fun c => c.containerName)
      = ["my app"]
    ∧ ((generate_matrix_output envC3x).containers.all.map fun c => c.appName) = ["My App"]
    ∧ normalize_azure_name (composeName "My App" "") = "my-app"
    ∧ ("my app" : String) ≠ "my-app"
    ∧ allowedChar ' ' = false := by
  decide

/-- C2 is false as stated: the V3 classifier resolves the deleted
sidecar's name from the live declared name `My App` but only lowercases
the composition, producing `my app-auth` instead of the normalized
`my-app-auth`. -/
theorem C2_counterexample :
    ((V3.analyze_deletions envC2x [["p", "Dockerfile.auth"]]).2.map
      fun r => r.containerName) = ["my app-auth"]
    ∧ normalize_azure_name (composeName "My App" "auth") = "my-app-auth"
    ∧ ("my app-auth" : String) ≠ "my-app-auth" := by
  decide

/-- C4 is false as stated on main.py: folder `a` was removed entirely and
its build definition is among the deleted paths, yet `apps.deleted` holds
no Unit record for it (only the Artifact record is emitted), because the
V4 classifier never consults `folder_exists`. -/
theorem C4_counterexample :
    envC4x.dirExists ["a"] = false
    ∧ deletedOf envC4x = [["a", "Dockerfile"]]
    ∧ (generate_matrix_output envC4x).apps.deleted = []
    ∧ ((generate_matrix_output envC4x).containers.deleted.map fun r => r.dockerfile)
      = [["a", "Dockerfile"]] := by
  decide

/-- C10: V4 Unit deletion records are derived solely from the deleted path
set — always the normalized folder name, the deleted configuration path,
and no check against the live inventory.  Deleting one of two recognized
configurations leaves the folder both in `apps.all` (under its declared
name) and in `apps.deleted` (under the folder-derived name); deleting
both yields two Unit deletion records for the one folder. -/
theorem C10_unit_deletions_from_deleted_set_only (env : Env) (del : List RelPath)
    (r : DeletedApp) (hr : r ∈ (analyze_deletions env del).1) :
    r.appName = normalize_azure_name (folderBaseName env.rootName r.path)
    ∧ r.appConfig ∈ del
    ∧ parentDir r.appConfig = r.path
    ∧ isAppConfigName (fileName r.appConfig) = true
    ∧ ((generate_matrix_output envC10a).apps.all.map fun a => (a.path, a.appName))
      = [(["u"], "Declared-U")]
    ∧ ((generate_matrix_output envC10a).apps.deleted.map
        fun r' => (r'.path, r'.appName, r'.appConfig))
      = [(["u"], "u", ["u", "app.yaml"])]
    ∧ ((generate_matrix_output envC10b).apps.deleted.map fun r' => (r'.path, r'.appConfig))
      = [(["u"], ["u", "app.yaml"]), (["u"], ["u", "app.yml"])] := by
  rw [analyze_deletions] at hr
  obtain ⟨fg, hfg, hrmem⟩ := List.mem_flatMap.1 hr
  obtain ⟨c, hc, hcr⟩ := List.mem_map.1 hrmem
  have hinv := (groupDeletedV4_inv env del fg hfg).1 c hc
  refine ⟨?_, ?_, ?_, ?_, by decide, by decide, by decide⟩
  · rw [← hcr]
  · rw [← hcr]
    exact hinv.1
  · rw [← hcr]
    exact hinv.2.1
  · rw [← hcr]
    exact hinv.2.2.1

/-! ## Witnesses -/
theorem C1_whole_folder_deletion_witness :
    ((V3.analyze_deletions envW1 [["a", "Dockerfile"]]).1.filter
      fun r => r.path == ["a"]) =
      [{ path := ["a"], appName := "a", appConfig := ["a", "app.yaml"],
         commitSha := none }] :=
  (C1_whole_folder_deletion envW1 [["a", "Dockerfile"]] ["a"] (by decide) (by decide)).1

theorem C2_artifact_uses_declared_name_witness :
    ((V3.analyze_deletions envW2 [["p", "Dockerfile.auth"]]).2.filter
      fun r => r.dockerfile == ["p", "Dockerfile.auth"]) =
      [{ appName := "p", containerName := "myapp-auth",
         dockerfile := ["p", "Dockerfile.auth"], commitSha := none }] :=
  C2_artifact_uses_declared_name envW2 [["p", "Dockerfile.auth"]] ["p"]
    ["p", "Dockerfile.auth"] ["p", "app.yaml"] "myapp" (by decide) (by decide) (by decide)
    (by decide) (by decide) (by decide) (by decide) (by decide) (by decide) (by decide)

theorem C3_container_names_lowercase_composed_witness :
    itemW3.containerName = lowerStr (composeName itemW3.appName itemW3.dockerfile.suffix)
    ∧ lowerStr itemW3.containerName = itemW3.containerName :=
  C3_container_names_lowercase_composed envW3 itemW3 (by decide)

theorem C6_rename_transparency_witness :
    (["b", "y"] : RelPath) ∈ changedOf envW6
    ∧ ((["a", "x"] : RelPath), (["b", "y"] : RelPath)) ∈ (get_changed_files envW6).2.2
    ∧ (["a", "x"] : RelPath) ∉ deletedOf envW6
    ∧ List.Disjoint (changedOf envW6) (deletedOf envW6)
    ∧ folder_has_changes ["b"] (changedOf envW6) = true :=
  C6_rename_transparency envW6 ["a", "x"] ["b", "y"] [] ["b"] (by decide) (by decide)
    (by decide) (by decide)

theorem C7_manual_trigger_witness :
    changedOf envW7 = [] ∧ deletedOf envW7 = [] :=
  ⟨(C7_manual_trigger envW7 entryW7 ["a", "app.yaml"]
      { path := ["a", "Dockerfile"], name := "Dockerfile", suffix := "" } rfl).1,
   (C7_manual_trigger envW7 entryW7 ["a", "app.yaml"]
      { path := ["a", "Dockerfile"], name := "Dockerfile", suffix := "" } rfl).2.1⟩

theorem C10_unit_deletions_witness :
    ("u" : String) = normalize_azure_name (folderBaseName envC10b.rootName ["u"]) :=
  (C10_unit_deletions_from_deleted_set_only envC10b
    [["u", "app.yaml"], ["u", "app.yml"]]
    { path := ["u"], appName := "u", appConfig := ["u", "app.yaml"], commitSha := none }
    (by decide)).1
